import Mathlib

/-!
# Verification of the GeNN code-generation core

A shallow embedding of the snippet substitution engine
(`lib/src/codeGenUtils.cc`), the CUDA presynaptic update strategies
(`presynapticUpdateStrategy.cc`), the model registry (`ModelSpec::add*`)
and the delay/queue finalization pass, together with proofs of the
specification's claims about them.

Code strings are embedded as `List Char`.  The C++ `while`-loops of
`substitute` and `functionSubstitute` restart their search from the start
of the buffer after every replacement and can therefore diverge; they are
embedded with an explicit fuel parameter, where `some r` at any fuel means
the loop terminates with result `r`, and `none` at every fuel means it
diverges.
-/

namespace GeNN

/-- Convert a string literal to the character-list representation. -/
def str (s : String) : List Char := s.data

/-! ## String search primitives (`std::string::find`, `replace`) -/

/-- `t.isPrefixList s` : does `s` start with `t`?  (Mirrors the prefix test
done by `std::string::find` at each candidate position.) -/
def isPrefixList : List Char → List Char → Bool
  | [], _ => true
  | _ :: _, [] => false
  | a :: as, b :: bs => if a = b then isPrefixList as bs else false

/-- `strFind s t` : index of the first occurrence of `t` in `s`
(`std::string::find`); `none` for `npos`. -/
def strFind : List Char → List Char → Option Nat
  | [], t => if t = [] then some 0 else none
  | c :: cs, t =>
    if isPrefixList t (c :: cs) then some 0
    else (strFind cs t).map (· + 1)

/-- One round of `s.replace(found, trg.length(), rep)` after a successful
`find`: `none` when `trg` does not occur. -/
def replaceFirst (s trg rep : List Char) : Option (List Char) :=
  match strFind s trg with
  | none => none
  | some i => some (s.take i ++ rep ++ s.drop (i + trg.length))

/-- `substitute(s, trg, rep)` from `codeGenUtils.cc`:

    size_t found= s.find(trg);
    while (found != string::npos) {
        s.replace(found,trg.length(),rep);
        found= s.find(trg);
    }

embedded with fuel: `none` = the loop has not finished within `fuel`
iterations (for a diverging input: at any fuel). -/
def substitute (trg rep : List Char) : Nat → List Char → Option (List Char)
  | fuel, s =>
    match replaceFirst s trg rep, fuel with
    | none, _ => some s
    | some _, 0 => none
    | some s2, f + 1 => substitute trg rep f s2

/-! ## `ensureFtype`: numeric-literal precision coercion
(`codeGenUtils.cc` lines 283-378, helper `doFinal` lines 128-148) -/

/-- The operator/lead-in character class `op` of `codeGenUtils.cc`:
`"+-*/(<>= ,;\n\t"`. -/
def opChars : List Char :=
  ['+', '-', '*', '/', '(', '<', '>', '=', ' ', ',', ';', '\n', '\t']

/-- Membership in the `op` class (`op.find(c) != npos`). -/
def isOp (c : Char) : Bool := opChars.contains c

/-- Membership in the `digits` class (`digits.find(c) != npos`). -/
def isDigitCh (c : Char) : Bool :=
  ['0', '1', '2', '3', '4', '5', '6', '7', '8', '9'].contains c

/-- The scanning `while` loop of `ensureFtype`, acting on the still
unprocessed suffix of the buffer and the current state, returning the
transformed suffix and the state at end of input.

States follow the source: 0 = looking for a valid lead-in, 1 = looking for
start of number, 2 = in an integer, 3 = after `.`, 4 = after `e`/`E`,
5 = after exponent sign, 6 = in exponent digits.

`doFinal` (reached from states 3 and 6 on a literal-terminating character
`c`) mutates the buffer in place at the current index `i` and re-reads
`code[i]` to choose the next state; the cases below spell that out:
* `c = 'f'`, type `"double"`: `code.erase(i,1)` removes `c`; `code[i]` is
  now the character after `c`, which determines the next state and is then
  skipped by the loop's `i++` (and when fewer than two characters follow,
  `i < code.size()-1` fails and the state is left at 3/6);
* `c = 'f'`, other type: no edit; `code[i] = 'f'` is not in `op`, so the
  state becomes 0 and `i++` moves on (state unchanged at end of input);
* `c ≠ 'f'`, type `"float"`: `code.insert(i,1,'f')` puts `'f'` before `c`;
  `code[i] = 'f'` sets the state to 0 and `i++` lands on `c`, which state 0
  then processes (emit `c`, state `op → 1` else 0);
* `c ≠ 'f'`, other type: no edit; the state comes from `c` itself and `i++`
  moves past it (state unchanged when `c` is last). -/
def ensureFtypeScan (type : String) : Nat → List Char → List Char × Nat
  | state, [] => ([], state)
  | 0, c :: rest =>
    let r := ensureFtypeScan type (if isOp c then 1 else 0) rest
    (c :: r.1, r.2)
  | 1, c :: rest =>
    let s2 := if isDigitCh c then 2
              else if c = '.' then 3
              else if !isOp c then 0
              else 1
    let r := ensureFtypeScan type s2 rest
    (c :: r.1, r.2)
  | 2, c :: rest =>
    let s2 := if c = '.' then 3
              else if c = 'e' ∨ c = 'E' then 4
              else if !isDigitCh c then (if isOp c then 1 else 0)
              else 2
    let r := ensureFtypeScan type s2 rest
    (c :: r.1, r.2)
  | 3, c :: rest =>
    if c = 'e' ∨ c = 'E' then
      let r := ensureFtypeScan type 4 rest
      (c :: r.1, r.2)
    else if isDigitCh c then
      let r := ensureFtypeScan type 3 rest
      (c :: r.1, r.2)
    else if c = 'f' then
      if type = "double" then
        match rest with
        | [] => ([], 3)
        | [d] => ([d], 3)
        | d :: d2 :: rest2 =>
          let r := ensureFtypeScan type (if isOp d then 1 else 0) (d2 :: rest2)
          (d :: r.1, r.2)
      else
        match rest with
        | [] => ([c], 3)
        | _ :: _ =>
          let r := ensureFtypeScan type 0 rest
          (c :: r.1, r.2)
    else
      if type = "float" then
        let r := ensureFtypeScan type (if isOp c then 1 else 0) rest
        ('f' :: c :: r.1, r.2)
      else
        match rest with
        | [] => ([c], 3)
        | _ :: _ =>
          let r := ensureFtypeScan type (if isOp c then 1 else 0) rest
          (c :: r.1, r.2)
  | 4, c :: rest =>
    let s2 := if isDigitCh c then 6
              else if c ≠ '+' ∧ c ≠ '-' then (if isOp c then 1 else 0)
              else 5
    let r := ensureFtypeScan type s2 rest
    (c :: r.1, r.2)
  | 5, c :: rest =>
    let s2 := if isDigitCh c then 6 else (if isOp c then 1 else 0)
    let r := ensureFtypeScan type s2 rest
    (c :: r.1, r.2)
  | 6, c :: rest =>
    if isDigitCh c then
      let r := ensureFtypeScan type 6 rest
      (c :: r.1, r.2)
    else if c = 'f' then
      if type = "double" then
        match rest with
        | [] => ([], 6)
        | [d] => ([d], 6)
        | d :: d2 :: rest2 =>
          let r := ensureFtypeScan type (if isOp d then 1 else 0) (d2 :: rest2)
          (d :: r.1, r.2)
      else
        match rest with
        | [] => ([c], 6)
        | _ :: _ =>
          let r := ensureFtypeScan type 0 rest
          (c :: r.1, r.2)
    else
      if type = "float" then
        let r := ensureFtypeScan type (if isOp c then 1 else 0) rest
        ('f' :: c :: r.1, r.2)
      else
        match rest with
        | [] => ([c], 6)
        | _ :: _ =>
          let r := ensureFtypeScan type (if isOp c then 1 else 0) rest
          (c :: r.1, r.2)
  | state, c :: rest =>
    -- unreachable states: the switch has no default, the character is
    -- consumed with the state unchanged
    let r := ensureFtypeScan type state rest
    (c :: r.1, r.2)

/-- The `mathsFuncs` table of `codeGenUtils.cc` (lines 42-99):
`(double-precision name, single-precision name)` pairs. -/
def mathsFuncs : List (String × String) :=
  [("cos", "cosf"), ("sin", "sinf"), ("tan", "tanf"), ("acos", "acosf"),
   ("asin", "asinf"), ("atan", "atanf"), ("atan2", "atan2f"),
   ("cosh", "coshf"), ("sinh", "sinhf"), ("tanh", "tanhf"),
   ("acosh", "acoshf"), ("asinh", "asinhf"), ("atanh", "atanhf"),
   ("exp", "expf"), ("frexp", "frexpf"), ("ldexp", "ldexpf"),
   ("log", "logf"), ("log10", "log10f"), ("modf", "modff"),
   ("exp2", "exp2f"), ("expm1", "expm1f"), ("ilogb", "ilogbf"),
   ("log1p", "log1pf"), ("log2", "log2f"), ("logb", "logbf"),
   ("scalbn", "scalbnf"), ("scalbln", "scalblnf"), ("pow", "powf"),
   ("sqrt", "sqrtf"), ("cbrt", "cbrtf"), ("hypot", "hypotf"),
   ("erf", "erff"), ("erfc", "erfcf"), ("tgamma", "tgammaf"),
   ("lgamma", "lgammaf"), ("ceil", "ceilf"), ("floor", "floorf"),
   ("fmod", "fmodf"), ("trunc", "truncf"), ("round", "roundf"),
   ("lround", "lroundf"), ("llround", "llroundf"), ("rint", "rintf"),
   ("lrint", "lrintf"), ("nearbyint", "nearbyintf"),
   ("remainder", "remainderf"), ("remquo", "remquof"),
   ("copysign", "copysignf"), ("nan", "nanf"), ("nextafter", "nextafterf"),
   ("nexttoward", "nexttowardf"), ("fdim", "fdimf"), ("fmax", "fmaxf"),
   ("fmin", "fminf"), ("fabs", "fabsf"), ("fma", "fmaf")]

/-- `ensureMathFunctionFtype` (`codeGenUtils.cc` lines 105-122): for
`type == "double"` substitute each single-precision name followed by `(`
by the double-precision one; otherwise the converse, iterating over the
table in order.  Each `substitute` call gets `fuel` iterations. -/
def ensureMathFunctionFtype (code : List Char) (type : String) (fuel : Nat) :
    Option (List Char) :=
  if type = "double" then
    mathsFuncs.foldl
      (fun acc p => acc.bind fun c =>
        substitute (p.2.data ++ ['(']) (p.1.data ++ ['(']) fuel c)
      (some code)
  else
    mathsFuncs.foldl
      (fun acc p => acc.bind fun c =>
        substitute (p.1.data ++ ['(']) (p.2.data ++ ['(']) fuel c)
      (some code)

/-- `ensureFtype(oldcode, type)` (`codeGenUtils.cc` lines 283-378): run the
literal scanner from state 1, append a trailing `f` when the scan ends in
state 3 or 6 and the target is `"float"`, then run the math-function
renaming pass. -/
def ensureFtype (oldcode : List Char) (type : String) (fuel : Nat) :
    Option (List Char) :=
  let r := ensureFtypeScan type 1 oldcode
  let code := if (r.2 = 3 ∨ r.2 = 6) ∧ type = "float" then r.1 ++ ['f'] else r.1
  ensureMathFunctionFtype code type fuel

/-! ## `functionSubstitute` (`codeGenUtils.cc` lines 175-263) -/

/-- `std::isspace` in the default locale. -/
def isSpaceCh (c : Char) : Bool :=
  [' ', '\t', '\n', '\x0b', '\x0c', '\r'].contains c

/-- The argument-parsing `for` loop of `functionSubstitute`, started just
after `"$(" + funcName + ","`.  Walks the remaining characters with the
current bracket depth, the parameter being accumulated and the parameters
parsed so far; on the closing `)` at depth 0 it returns the full parameter
list and the characters after the `)`.  `none` models the source's
`assert(!currentParam.empty())` firing, or the loop running off the end of
the buffer (in which case the enclosing `while` re-finds the same position
and never terminates). -/
def parseFuncArgs : List Char → Nat → List Char → List (List Char) →
    Option (List (List Char) × List Char)
  | [], _, _, _ => none
  | c :: rest, depth, cur, ps =>
    if c = ',' ∧ depth = 0 then
      if cur = [] then none
      else parseFuncArgs rest 0 [] (ps ++ [cur])
    else if c = '(' then
      parseFuncArgs rest (depth + 1) (cur ++ [c]) ps
    else if c = ')' then
      if 0 < depth then
        parseFuncArgs rest (depth - 1) (cur ++ [c]) ps
      else if cur = [] then none
      else some (ps ++ [cur], rest)
    else
      parseFuncArgs rest depth
        (if 0 < depth ∨ !isSpaceCh c then cur ++ [c] else cur) ps

/-- The template-instantiation loop: `substitute(replaceFunc, "$(p)",
params[p])` for `p = 0, 1, …`. -/
def substTemplateParams (fuel : Nat) : List Char → Nat → List (List Char) →
    Option (List Char)
  | tmpl, _, [] => some tmpl
  | tmpl, p, param :: ps =>
    (substitute (['$', '('] ++ (toString p).data ++ [')']) param fuel tmpl).bind
      fun t => substTemplateParams fuel t (p + 1) ps

/-- `functionSubstitute(code, funcName, numParams, replaceFuncTemplate)`:
zero-parameter calls are a plain `substitute` of `"$(" + funcName + ")"`;
otherwise the `while` loop repeatedly finds `"$(" + funcName + ","`,
parses the arguments, instantiates the template and replaces the matched
span, restarting the search from the beginning.  Fuel bounds the `while`
iterations (and the inner `substitute` loops). -/
def functionSubstitute (code funcName : List Char) (numParams : Nat)
    (replaceFuncTemplate : List Char) : Nat → Option (List Char) :=
  fun fuel =>
    if numParams = 0 then
      substitute (['$', '('] ++ funcName ++ [')']) replaceFuncTemplate fuel code
    else go fuel code
where
  /-- one round of the outer `while (found != npos)` loop -/
  go : Nat → List Char → Option (List Char)
    | fuel, c =>
      let funcStart := ['$', '('] ++ funcName ++ [',']
      match strFind c funcStart, fuel with
      | none, _ => some c
      | some _, 0 => none
      | some found, f + 1 =>
        match parseFuncArgs (c.drop (found + funcStart.length)) 0 [] [] with
        | none => none
        | some (params, restAfter) =>
          if params.length = numParams then
            match substTemplateParams f replaceFuncTemplate 0 params with
            | none => none
            | some replaceFunc =>
              go f (c.take found ++ replaceFunc ++ restAfter)
          else none

/-! ## `checkUnreplacedVariables` (`codeGenUtils.cc` lines 388-401)

The source iterates `std::regex "\$\([\w]+\)"` over the code with
`sregex_iterator`, which yields the successive non-overlapping leftmost
matches.  `findUnreplaced` is that scan: at each position, either the text
starts a full match `$(`, one or more word characters, `)` — whose body is
collected and the scan resumes after the match — or the scan advances one
character.  (After a maximal word-character run, the regex engine cannot
backtrack into a shorter match: the character ending a shorter run is a
word character, not `)`.)  Fuel: one unit per position, so `s.length`
suffices. -/

/-- `\w` of the C++ regex in the default locale: letters, digits, `_`. -/
def isWordChar (c : Char) : Bool := c.isAlphanum || c = '_'

/-- The bodies of all matches of `\$\([\w]+\)`, leftmost first: at each
position, either a full match `$(`, a non-empty maximal word-character
run, `)` starts here — its body is collected and the scan resumes after
the match — or the scan advances one character. -/
def findUnreplaced : Nat → List Char → List (List Char)
  | 0, _ => []
  | _, [] => []
  | f + 1, c :: rest =>
    if c = '$' then
      if rest.head? = some '(' then
        if rest.tail.takeWhile isWordChar ≠ []
            ∧ (rest.tail.dropWhile isWordChar).head? = some ')' then
          rest.tail.takeWhile isWordChar
            :: findUnreplaced f (rest.tail.dropWhile isWordChar).tail
        else findUnreplaced f rest
      else findUnreplaced f rest
    else findUnreplaced f rest

/-- The unresolved-placeholder bodies of a code string. -/
def findUnreplacedVars (code : List Char) : List (List Char) :=
  findUnreplaced code.length code

/-- `checkUnreplacedVariables(code, codeName)`: collect every remaining
placeholder body as `body + ", "`, and if any were found, drop the final
`", "`, choose singular or plural by searching the joined string for a
comma, and fail via `gennError` with the assembled diagnostic. -/
def checkUnreplacedVariables (code codeName : List Char) :
    Except (List Char) Unit :=
  let vars0 := (findUnreplacedVars code).foldl
    (fun acc v => acc ++ v ++ [',', ' ']) []
  if 0 < vars0.length then
    let vars1 := vars0.take (vars0.length - 2)
    let vars2 :=
      if strFind vars1 [','] ≠ none then
        str "variables " ++ vars1 ++ str " were "
      else
        str "variable " ++ vars1 ++ str " was "
    .error (str "The " ++ vars2 ++ str "undefined in code " ++ codeName
      ++ str ".")
  else
    .ok ()

/-! ## Presynaptic update strategies
(`presynapticUpdateStrategy.cc`, CUDA backend) -/

/-- `SynapseGroup::SpanType`. -/
inductive SpanType
  | PRESYNAPTIC
  | POSTSYNAPTIC
deriving DecidableEq

/-- `SynapseMatrixConnectivity`. -/
inductive SynapseMatrixConnectivity
  | DENSE
  | SPARSE
  | BITMASK
  | PROCEDURAL
deriving DecidableEq

/-- `VarImplementation`. -/
inductive VarImplementation
  | INDIVIDUAL
  | GLOBAL
  | PROCEDURAL
deriving DecidableEq

/-- The fields of `SynapseGroupInternal` consulted by the presynaptic
update strategies. -/
structure SynapseGroupInfo where
  spanType : SpanType
  matrixConnectivity : SynapseMatrixConnectivity
  wuVarImplementation : List VarImplementation
  dendriticDelayRequired : Bool
  psModelMerged : Bool
  trgNumNeurons : Nat
deriving DecidableEq

/-- The CUDA backend facts consulted by `isSmallSharedMemoryPop`. -/
structure CudaBackendInfo where
  deviceMajor : Nat
  kernelBlockSize : Nat
deriving DecidableEq

/-- `isSmallSharedMemoryPop(sg, backend)` (anonymous namespace of
`presynapticUpdateStrategy.cc`): false before Maxwell (`major < 5`), false
when dendritic delays are required, true when the target population fits
in a kernel block. -/
def isSmallSharedMemoryPop (sg : SynapseGroupInfo) (backend : CudaBackendInfo) :
    Bool :=
  if backend.deviceMajor < 5 then false
  else if sg.dendriticDelayRequired then false
  else if sg.trgNumNeurons ≤ backend.kernelBlockSize then true
  else false

namespace PreSpan

/-- `PreSpan::isCompatible`: span presynaptic and sparse connectivity. -/
def isCompatible (sg : SynapseGroupInfo) : Bool :=
  sg.spanType = SpanType.PRESYNAPTIC
    ∧ sg.matrixConnectivity = SynapseMatrixConnectivity.SPARSE

end PreSpan

namespace PostSpan

/-- `PostSpan::isCompatible`: span postsynaptic and connectivity not
procedural. -/
def isCompatible (sg : SynapseGroupInfo) : Bool :=
  sg.spanType = SpanType.POSTSYNAPTIC
    ∧ ¬(sg.matrixConnectivity = SynapseMatrixConnectivity.PROCEDURAL)

/-- `PostSpan::shouldAccumulateInRegister`: no dendritic delay and a dense
or bitmask matrix. -/
def shouldAccumulateInRegister (sg : SynapseGroupInfo) : Bool :=
  ¬sg.dendriticDelayRequired
    ∧ (sg.matrixConnectivity = SynapseMatrixConnectivity.DENSE
        ∨ sg.matrixConnectivity = SynapseMatrixConnectivity.BITMASK)

end PostSpan

namespace PreSpanProcedural

/-- `PreSpanProcedural::isCompatible`: procedural connectivity and every
weight-update variable implemented as global or procedural. -/
def isCompatible (sg : SynapseGroupInfo) : Bool :=
  if sg.matrixConnectivity = SynapseMatrixConnectivity.PROCEDURAL then
    sg.wuVarImplementation.all
      (fun v => v = VarImplementation.GLOBAL ∨ v = VarImplementation.PROCEDURAL)
  else false

end PreSpanProcedural

/-- The three strategies. -/
inductive Strategy
  | PreSpanProcedural
  | PreSpan
  | PostSpan
deriving DecidableEq

/-- Compatibility dispatch. -/
def strategyCompatible : Strategy → SynapseGroupInfo → Bool
  | .PreSpanProcedural, sg => PreSpanProcedural.isCompatible sg
  | .PreSpan, sg => PreSpan.isCompatible sg
  | .PostSpan, sg => PostSpan.isCompatible sg

/-- Modelled from the spec: the strategy registry and its fixed query
order (spec §4.4 — "dispatched to exactly one of three strategies, chosen
as the first compatible in a fixed order": PreSpanProcedural, PreSpan,
PostSpan); the registration code is a backend source file that is not part
of the sources at hand. -/
def strategyOrder : List Strategy :=
  [.PreSpanProcedural, .PreSpan, .PostSpan]

/-- Modelled from the spec: strategy selection — the first compatible
strategy in the fixed order. -/
def selectStrategy (sg : SynapseGroupInfo) : Option Strategy :=
  strategyOrder.find? (fun st => strategyCompatible st sg)

/-- The `$(addToInSyn)`/`$(addToInSynDelay)` function substitution that
`PostSpan::genUpdate` registers for the weight-update `sim` code, by the
source's dispatch: dendritic delay → atomic add into `denDelay`; register
accumulation → `linSyn += $(0)`; small shared-memory population →
`shLg[...] += $(0)`; otherwise → atomic add into `inSyn`. -/
inductive AddToInSynExpansion
  | denDelayAtomic
  | register
  | sharedMem
  | globalAtomic
deriving DecidableEq

/-- The dispatch of `PostSpan::genUpdate` (`presynapticUpdateStrategy.cc`
lines 395-416 of the update body). -/
def postSpanAddToInSyn (sg : SynapseGroupInfo) (backend : CudaBackendInfo) :
    AddToInSynExpansion :=
  if sg.dendriticDelayRequired then .denDelayAtomic
  else if PostSpan.shouldAccumulateInRegister sg then .register
  else if isSmallSharedMemoryPop sg backend then .sharedMem
  else .globalAtomic

/-- The code template registered for the register case. -/
def registerAccumTemplate : List Char := str "linSyn += $(0)"

/-- The template the dispatch actually registers for `addToInSyn` in the
non-dendritic cases (the dendritic case registers `addToInSynDelay`
instead). -/
def postSpanAddToInSynTemplate (sg : SynapseGroupInfo)
    (backend : CudaBackendInfo) (atomicAddName postIdx psTarget : List Char) :
    List Char :=
  match postSpanAddToInSyn sg backend with
  | .denDelayAtomic => []
  | .register => registerAccumTemplate
  | .sharedMem => str "shLg[" ++ postIdx ++ str "] += $(0)"
  | .globalAtomic =>
      atomicAddName ++ str "(&dd_inSyn" ++ psTarget ++ str "["
        ++ postIdx ++ str "], $(0))"

/-- How `PostSpan::genPostamble` flushes accumulated input, and
`genSmallSharedMemoryPopPostamble` for the shared case: `atomicAdd` when
the post-synaptic model is merged, plain `+=` otherwise; nothing when
neither a register nor the shared accumulator is in use. -/
inductive PostambleFlush
  | registerAtomic
  | registerPlain
  | sharedAtomic
  | sharedPlain
  | none
deriving DecidableEq

/-- The dispatch of `PostSpan::genPostamble` (`presynapticUpdateStrategy.cc`
lines 432-454). -/
def postSpanPostambleFlush (sg : SynapseGroupInfo)
    (backend : CudaBackendInfo) : PostambleFlush :=
  if PostSpan.shouldAccumulateInRegister sg then
    if sg.psModelMerged then .registerAtomic else .registerPlain
  else if isSmallSharedMemoryPop sg backend then
    if sg.psModelMerged then .sharedAtomic else .sharedPlain
  else .none

/-! ## The model registries and `ModelSpec::add*`
(`currentSourceModels.h`, `ModelSpec` section) -/

/-- The data of a neuron group held by the registry (only the fields the
claims consult; `injectedSources` records `NeuronGroup::injectCurrent`
calls). -/
structure NeuronGroupR where
  numNeurons : Nat
  injectedSources : List String
deriving DecidableEq

/-- The data of a synapse group held by the registry. -/
structure SynapseGroupR where
  delaySteps : Nat
  srcName : String
  trgName : String
deriving DecidableEq

/-- The data of a current source held by the registry. -/
structure CurrentSourceR where
  targetName : String
deriving DecidableEq

/-- `std::map::emplace` on a name-keyed registry: if the key is present the
map is unchanged and insertion is reported to have failed; otherwise the
entry is added. -/
def emplace {α : Type} (m : List (String × α)) (k : String) (v : α) :
    List (String × α) × Bool :=
  if m.any (fun e => e.1 = k) then (m, false) else (m ++ [(k, v)], true)

/-- The registries of `ModelSpec` (MPI disabled: the `m_Local*` maps). -/
structure ModelSpec where
  localNeuronGroups : List (String × NeuronGroupR)
  localSynapseGroups : List (String × SynapseGroupR)
  localCurrentSources : List (String × CurrentSourceR)
deriving DecidableEq

namespace ModelSpec

/-- Name lookup in the neuron registry (`findNeuronGroupInternal`; its
body is not among the sources at hand — modelled from the spec's
"unknown source/target name" construction error as a lookup that the
`add*` callers turn into a failure). -/
def findNeuronGroupInternal (m : ModelSpec) (name : String) :
    Option NeuronGroupR :=
  (m.localNeuronGroups.find? (fun e => e.1 = name)).map (·.2)

/-- `ModelSpec::addNeuronPopulation(name, size, …)`: emplace into the
neuron-group map; a failed emplace (duplicate name) throws, leaving the
map unchanged. -/
def addNeuronPopulation (m : ModelSpec) (name : String) (size : Nat) :
    Except String ModelSpec :=
  let r := emplace m.localNeuronGroups name ⟨size, []⟩
  if r.2 then
    .ok { m with localNeuronGroups := r.1 }
  else
    .error ("Cannot add a neuron population with duplicate name:" ++ name)

/-- `ModelSpec::addSynapsePopulation(name, mtype, delaySteps, src, trg, …)`:
resolve the source and target neuron groups, then emplace into the
synapse-group map; a failed emplace (duplicate name) throws, leaving the
map unchanged. -/
def addSynapsePopulation (m : ModelSpec) (name : String) (delaySteps : Nat)
    (src trg : String) : Except String ModelSpec :=
  match m.findNeuronGroupInternal src, m.findNeuronGroupInternal trg with
  | some _, some _ =>
    let r := emplace m.localSynapseGroups name ⟨delaySteps, src, trg⟩
    if r.2 then
      .ok { m with localSynapseGroups := r.1 }
    else
      .error ("Cannot add a synapse population with duplicate name:" ++ name)
  | _, _ => .error "unknown source or target population"

/-- Record a `NeuronGroup::injectCurrent` call on the named target group. -/
def injectCurrentInto (m : ModelSpec) (target csName : String) : ModelSpec :=
  { m with localNeuronGroups :=
      m.localNeuronGroups.map (fun e =>
        if e.1 = target then
          (e.1, { e.2 with injectedSources := e.2.injectedSources ++ [csName] })
        else e) }

/-- `ModelSpec::addCurrentSource(currentSourceName, …, targetNeuronGroupName,
…)`: resolve the target group, emplace into the current-source map; on
success the new source is injected into the target group, on a duplicate
name the call throws with both maps unchanged. -/
def addCurrentSource (m : ModelSpec) (name : String) (target : String) :
    Except String ModelSpec :=
  match m.findNeuronGroupInternal target with
  | some _ =>
    let r := emplace m.localCurrentSources name ⟨target⟩
    if r.2 then
      .ok (injectCurrentInto { m with localCurrentSources := r.1 } target name)
    else
      .error ("Cannot add a current source with duplicate name:" ++ name)
  | none => .error "unknown target population"

end ModelSpec

/-! ## Delay widening and variable queues at finalize

`NeuronGroup::checkNumDelaySlots` and `NeuronGroup::updatePreVarQueues` are
declared in the `NeuronGroup` header among the sources at hand but their
implementation file is not; the finalize pass below is modelled from the
spec (§4.2 step 2): scan each synapse group's weight-update code for
`$(X_pre)` references; a pre-variable referenced from a group with delayed
access requires a queue on the source neuron group, whose
`num_delay_slots` is widened to at least `delay_steps + 1`. -/

/-- A neuron group as seen by the finalize pass: its variable names, its
current delay-slot count, and the set of variables flagged as needing a
queue. -/
structure NeuronGroupF where
  vars : List String
  numDelaySlots : Nat
  varQueueRequired : List String
deriving DecidableEq

/-- A synapse group as seen by the finalize pass: index of its source
neuron group, its axonal delay and its weight-update code. -/
structure SynapseGroupF where
  srcIdx : Nat
  delaySteps : Nat
  wuCode : List Char
deriving DecidableEq

/-- The model as seen by the finalize pass. -/
structure NetworkModelF where
  neurons : List NeuronGroupF
  synapses : List SynapseGroupF
deriving DecidableEq

/-- The `$(X_pre)` placeholder for variable `X`. -/
def preVarPlaceholder (x : String) : List Char :=
  str "$(" ++ x.data ++ str "_pre)"

/-- Does the code reference `$(X_pre)` (`code.find(...) != npos`)? -/
def referencesPreVar (code : List Char) (x : String) : Bool :=
  strFind code (preVarPlaceholder x) ≠ none

/-- Modelled from the spec: `NeuronGroup::checkNumDelaySlots(requiredDelay)`
widens `m_NumDelaySlots` to at least `requiredDelay + 1`. -/
def checkNumDelaySlots (ng : NeuronGroupF) (requiredDelay : Nat) :
    NeuronGroupF :=
  { ng with numDelaySlots := max ng.numDelaySlots (requiredDelay + 1) }

/-- Modelled from the spec: `NeuronGroup::updatePreVarQueues(code)` flags
every variable the code references as `$(X_pre)` as queue-required. -/
def updatePreVarQueues (ng : NeuronGroupF) (code : List Char) :
    NeuronGroupF :=
  { ng with varQueueRequired := ng.varQueueRequired
      ++ (ng.vars.filter (fun x => referencesPreVar code x)) }

/-- Apply `f` to the element at index `i`, leaving the rest unchanged. -/
def updateNeuronAt : List NeuronGroupF → Nat →
    (NeuronGroupF → NeuronGroupF) → List NeuronGroupF
  | [], _, _ => []
  | ng :: rest, 0, f => f ng :: rest
  | ng :: rest, i + 1, f => ng :: updateNeuronAt rest i f

/-- Modelled from the spec: processing one synapse group during finalize —
for a group with delayed access (`delay_steps > 0`), widen the source
group's delay slots and update its variable queues from the weight-update
code. -/
def finalizeSynapseGroup (m : NetworkModelF) (sg : SynapseGroupF) :
    NetworkModelF :=
  if 0 < sg.delaySteps then
    { m with neurons := updateNeuronAt m.neurons sg.srcIdx (fun ng =>
        updatePreVarQueues (checkNumDelaySlots ng sg.delaySteps) sg.wuCode) }
  else m

/-- Modelled from the spec: the delay/queue part of `finalize()` — fold
over the synapse groups. -/
def finalizeDelays (m : NetworkModelF) : NetworkModelF :=
  m.synapses.foldl finalizeSynapseGroup m

/-- The `$(X_pre)` substitution performed for one presynaptic neuron
variable by `neuron_substitutions_in_synaptic_code` (`codeGenUtils.cc`
lines 430-439): a queue-required variable is read through the pre-synaptic
queue offset, any other through the raw pre-synaptic index. -/
def preVarSubstInSynapticCode (wCode : List Char) (x : String)
    (queueRequired : Bool) (devPref ngName offsetPre preIdx : List Char)
    (fuel : Nat) : Option (List Char) :=
  if queueRequired then
    substitute (preVarPlaceholder x)
      (devPref ++ x.data ++ ngName ++ str "[" ++ offsetPre ++ preIdx ++ str "]")
      fuel wCode
  else
    substitute (preVarPlaceholder x)
      (devPref ++ x.data ++ ngName ++ str "[" ++ preIdx ++ str "]")
      fuel wCode

/-- The placeholder bodies joined by `", "`, as left in `vars` by
`checkUnreplacedVariables` after stripping the final separator. -/
def joinCommaSep : List (List Char) → List Char
  | [] => []
  | [v] => v
  | v :: w :: vs => v ++ [',', ' '] ++ joinCommaSep (w :: vs)

end GeNN

namespace GeNN

/-! # Theorems -/

/-- **C3.** With target type `float`, `ensureFtype` appends an `f` suffix
to the floating-point literals `1.5` and `2e-3` and leaves the integer
token `3` unchanged: on input `"x = 1.5 + 2e-3 + 3;"` the result is
exactly `"x = 1.5f + 2e-3f + 3;"`; moreover an integer-looking token is
not coerced even in isolation (`"3"` stays `"3"`), while `"3.0"` and
`"3e0"` are. -/
theorem claim_C3_literal_coercion_single :
    ensureFtype (str "x = 1.5 + 2e-3 + 3;") "float" 4
      = some (str "x = 1.5f + 2e-3f + 3;")
    ∧ ensureFtype (str "3") "float" 4 = some (str "3")
    ∧ ensureFtype (str "3.0") "float" 4 = some (str "3.0f")
    ∧ ensureFtype (str "3e0") "float" 4 = some (str "3e0f") := by
  refine ⟨?_, ?_, ?_, ?_⟩ <;> decide

/-- **C4.** `functionSubstitute` on `"y = $(scale, $(mul, a, b), 0.5);"`
with function name `scale`, arity 2 and template `"(($(0)) * ($(1)))"`
parses the nested-parenthesis argument `$(mul, a, b)` as one argument,
strips the top-level whitespace, rewrites the outer call once and leaves
the nested `$()` call intact: the result is exactly
`"y = (($(mul, a, b)) * (0.5));"`. -/
theorem claim_C4_function_substitute_nested :
    functionSubstitute (str "y = $(scale, $(mul, a, b), 0.5);")
      (str "scale") 2 (str "(($(0)) * ($(1)))") 8
      = some (str "y = (($(mul, a, b)) * (0.5));") := by decide

/-- **C2, counterexample.** `ensureFtype` is not idempotent: with target
`float`, `"1.5"` becomes `"1.5f"` but a second application yields
`"1.5ff"` (the `f` suffix at the very end of the buffer is processed with
the state left at 3, so the end-of-input rule appends another `f`); with
target `double`, `".ff"` loses only one `f` per pass. -/
theorem claim_C2_counterexample :
    (ensureFtype (str "1.5") "float" 4 = some (str "1.5f")
      ∧ ensureFtype (str "1.5f") "float" 4 = some (str "1.5ff")
      ∧ str "1.5ff" ≠ str "1.5f")
    ∧ (ensureFtype (str ".ff") "double" 4 = some (str ".f")
      ∧ ensureFtype (str ".f") "double" 4 = some (str ".")
      ∧ str "." ≠ str ".f") := by
  refine ⟨⟨?_, ?_, ?_⟩, ⟨?_, ?_, ?_⟩⟩ <;> decide

/-- **C2, amended.** `ensureFtype` is idempotent on the specification's
own scenario inputs for both target types (though not in general): the
second application reproduces the first application's output for
`"x = 1.5 + 2e-3 + 3;"` and `"x = 1.5f + 2.0;"` under both `float` and
`double`. -/
theorem claim_C2_amended_idempotent_on_scenarios :
    (ensureFtype (str "x = 1.5 + 2e-3 + 3;") "float" 4
        = some (str "x = 1.5f + 2e-3f + 3;")
      ∧ ensureFtype (str "x = 1.5f + 2e-3f + 3;") "float" 4
        = some (str "x = 1.5f + 2e-3f + 3;"))
    ∧ (ensureFtype (str "x = 1.5 + 2e-3 + 3;") "double" 4
        = some (str "x = 1.5 + 2e-3 + 3;"))
    ∧ (ensureFtype (str "x = 1.5f + 2.0;") "double" 4
        = some (str "x = 1.5 + 2.0;")
      ∧ ensureFtype (str "x = 1.5 + 2.0;") "double" 4
        = some (str "x = 1.5 + 2.0;"))
    ∧ (ensureFtype (str "x = 1.5f + 2.0;") "float" 4
        = some (str "x = 1.5f + 2.0f;")
      ∧ ensureFtype (str "x = 1.5f + 2.0f;") "float" 4
        = some (str "x = 1.5f + 2.0f;")) := by
  refine ⟨⟨?_, ?_⟩, ?_, ⟨?_, ?_⟩, ⟨?_, ?_⟩⟩ <;> decide

/-- **C8, counterexample.** The `mathsFuncs` table has 56 entries, not
55. -/
theorem claim_C8_counterexample : mathsFuncs.length = 56
    ∧ mathsFuncs.length ≠ 55 := by decide

/-- **C8, amended.** The companion pass replaces math-function names
immediately followed by `(` with their precision-appropriate form —
double-precision names gain the `f` suffix when the target is `float`,
`f`-suffixed names lose it when the target is `double` — against a fixed
table of 56 entries including `cos`/`cosf` and `pow`/`powf`; every
occurrence is rewritten. -/
theorem claim_C8_amended_math_function_renaming :
    mathsFuncs.length = 56
    ∧ ("cos", "cosf") ∈ mathsFuncs
    ∧ ("pow", "powf") ∈ mathsFuncs
    ∧ ensureMathFunctionFtype (str "y = cos(x) + pow(x, n);") "float" 4
        = some (str "y = cosf(x) + powf(x, n);")
    ∧ ensureMathFunctionFtype (str "y = cosf(x) + powf(x, n);") "double" 4
        = some (str "y = cos(x) + pow(x, n);")
    ∧ ensureMathFunctionFtype (str "sin(sin(x))") "float" 4
        = some (str "sinf(sinf(x))") := by
  refine ⟨?_, ?_, ?_, ?_, ?_, ?_⟩ <;> decide

/-- **C6.** The strategy compatibility predicates decide selection as
specified: `PreSpan.isCompatible` holds iff the span type is presynaptic
and the connectivity sparse; `PostSpan.isCompatible` iff the span type is
postsynaptic and the connectivity not procedural;
`PreSpanProcedural.isCompatible` iff the connectivity is procedural and
every weight-update variable implementation is global or procedural.
Hence a sparse group with postsynaptic span selects `PostSpan`, the same
group with presynaptic span selects `PreSpan`, and a
procedural-connectivity group with global weights selects
`PreSpanProcedural`. -/
theorem claim_C6_strategy_compatibility (sg : SynapseGroupInfo) :
    (PreSpan.isCompatible sg = true ↔
      sg.spanType = SpanType.PRESYNAPTIC
        ∧ sg.matrixConnectivity = SynapseMatrixConnectivity.SPARSE)
    ∧ (PostSpan.isCompatible sg = true ↔
      sg.spanType = SpanType.POSTSYNAPTIC
        ∧ sg.matrixConnectivity ≠ SynapseMatrixConnectivity.PROCEDURAL)
    ∧ (PreSpanProcedural.isCompatible sg = true ↔
      sg.matrixConnectivity = SynapseMatrixConnectivity.PROCEDURAL
        ∧ ∀ v ∈ sg.wuVarImplementation,
            v = VarImplementation.GLOBAL ∨ v = VarImplementation.PROCEDURAL)
    ∧ (sg.matrixConnectivity = SynapseMatrixConnectivity.SPARSE →
        sg.spanType = SpanType.POSTSYNAPTIC →
        selectStrategy sg = some Strategy.PostSpan)
    ∧ (sg.matrixConnectivity = SynapseMatrixConnectivity.SPARSE →
        sg.spanType = SpanType.PRESYNAPTIC →
        selectStrategy sg = some Strategy.PreSpan)
    ∧ (sg.matrixConnectivity = SynapseMatrixConnectivity.PROCEDURAL →
        (∀ v ∈ sg.wuVarImplementation, v = VarImplementation.GLOBAL) →
        selectStrategy sg = some Strategy.PreSpanProcedural) := by
  obtain ⟨span, conn, impls, dd, merged, trg⟩ := sg
  refine ⟨?_, ?_, ?_, ?_, ?_, ?_⟩
  · simp [PreSpan.isCompatible]
  · simp [PostSpan.isCompatible]
  · cases conn <;>
      simp [PreSpanProcedural.isCompatible, List.all_eq_true]
  · rintro rfl rfl
    simp [selectStrategy, strategyOrder, List.find?, strategyCompatible,
      PreSpanProcedural.isCompatible, PreSpan.isCompatible,
      PostSpan.isCompatible]
  · rintro rfl rfl
    simp [selectStrategy, strategyOrder, List.find?, strategyCompatible,
      PreSpanProcedural.isCompatible, PreSpan.isCompatible,
      PostSpan.isCompatible]
  · rintro rfl hall
    have himpl : (impls.all fun v =>
        decide (v = VarImplementation.GLOBAL)
          || decide (v = VarImplementation.PROCEDURAL)) = true := by
      simp only [List.all_eq_true, Bool.or_eq_true, decide_eq_true_eq]
      intro v hv
      exact Or.inl (hall v hv)
    simp [selectStrategy, strategyOrder, List.find?, strategyCompatible,
      PreSpanProcedural.isCompatible, PreSpan.isCompatible,
      PostSpan.isCompatible, himpl]

/-- **C6, witness.** The three selection scenarios at concrete groups. -/
theorem claim_C6_witness :
    selectStrategy ⟨SpanType.POSTSYNAPTIC, SynapseMatrixConnectivity.SPARSE,
        [VarImplementation.INDIVIDUAL], false, false, 4⟩
      = some Strategy.PostSpan
    ∧ selectStrategy ⟨SpanType.PRESYNAPTIC, SynapseMatrixConnectivity.SPARSE,
        [VarImplementation.INDIVIDUAL], false, false, 4⟩
      = some Strategy.PreSpan
    ∧ selectStrategy ⟨SpanType.PRESYNAPTIC,
        SynapseMatrixConnectivity.PROCEDURAL,
        [VarImplementation.GLOBAL], false, false, 4⟩
      = some Strategy.PreSpanProcedural :=
  ⟨(claim_C6_strategy_compatibility _).2.2.2.1 rfl rfl,
   (claim_C6_strategy_compatibility _).2.2.2.2.1 rfl rfl,
   (claim_C6_strategy_compatibility _).2.2.2.2.2 rfl
     (by intro v hv; simpa using hv)⟩

/-- **C7, counterexample.** In `PostSpan`, `$(addToInSyn)` expands to the
register accumulation also for a bitmask-connectivity group without
dendritic delay, so "exactly when the matrix connectivity is dense" is
false. -/
theorem claim_C7_counterexample :
    postSpanAddToInSyn ⟨SpanType.POSTSYNAPTIC,
        SynapseMatrixConnectivity.BITMASK,
        [VarImplementation.INDIVIDUAL], false, false, 4⟩ ⟨7, 32⟩
      = AddToInSynExpansion.register
    ∧ (⟨SpanType.POSTSYNAPTIC, SynapseMatrixConnectivity.BITMASK,
        [VarImplementation.INDIVIDUAL], false, false, 4⟩ :
          SynapseGroupInfo).matrixConnectivity
        ≠ SynapseMatrixConnectivity.DENSE := by decide

/-- **C7, amended.** In `PostSpan` with no dendritic delay required,
`$(addToInSyn)` expands to the register accumulation `linSyn += $(0)`
exactly when the matrix connectivity is dense **or bitmask**
(`shouldAccumulateInRegister`), and the postamble then flushes the
register to `inSyn` with an atomic add when the post-synaptic model is
merged and a plain `+=` otherwise. -/
theorem claim_C7_amended_register_accumulation (sg : SynapseGroupInfo)
    (backend : CudaBackendInfo)
    (atomicAddName postIdx psTarget : List Char) :
    (sg.dendriticDelayRequired = false →
      (postSpanAddToInSyn sg backend = AddToInSynExpansion.register ↔
        (sg.matrixConnectivity = SynapseMatrixConnectivity.DENSE
          ∨ sg.matrixConnectivity = SynapseMatrixConnectivity.BITMASK)))
    ∧ (postSpanAddToInSyn sg backend = AddToInSynExpansion.register →
        postSpanAddToInSynTemplate sg backend atomicAddName postIdx psTarget
          = str "linSyn += $(0)")
    ∧ (PostSpan.shouldAccumulateInRegister sg = true →
        postSpanPostambleFlush sg backend
          = (if sg.psModelMerged then PostambleFlush.registerAtomic
             else PostambleFlush.registerPlain)) := by
  refine ⟨?_, ?_, ?_⟩
  · intro hdd
    cases hs : sg.matrixConnectivity <;>
      simp [postSpanAddToInSyn, hdd, PostSpan.shouldAccumulateInRegister,
        hs] <;>
      first
      | rfl
      | (split <;> simp)
  · intro hr
    simp [postSpanAddToInSynTemplate, hr, registerAccumTemplate]
  · intro hacc
    simp [postSpanPostambleFlush, hacc]

/-- **C7, witness.** A dense, unmerged group without dendritic delay
accumulates in the register and flushes with a plain `+=`. -/
theorem claim_C7_witness :
    (postSpanAddToInSyn ⟨SpanType.POSTSYNAPTIC,
        SynapseMatrixConnectivity.DENSE,
        [VarImplementation.INDIVIDUAL], false, false, 4⟩ ⟨7, 32⟩
      = AddToInSynExpansion.register
      ∨ postSpanAddToInSyn ⟨SpanType.POSTSYNAPTIC,
          SynapseMatrixConnectivity.DENSE,
          [VarImplementation.INDIVIDUAL], false, false, 4⟩ ⟨7, 32⟩
        ≠ AddToInSynExpansion.register)
    ∧ postSpanAddToInSynTemplate ⟨SpanType.POSTSYNAPTIC,
        SynapseMatrixConnectivity.DENSE,
        [VarImplementation.INDIVIDUAL], false, false, 4⟩ ⟨7, 32⟩
        (str "atomicAdd") (str "ipost") (str "Syn")
      = str "linSyn += $(0)"
    ∧ postSpanPostambleFlush ⟨SpanType.POSTSYNAPTIC,
        SynapseMatrixConnectivity.DENSE,
        [VarImplementation.INDIVIDUAL], false, false, 4⟩ ⟨7, 32⟩
      = PostambleFlush.registerPlain := by
  have h := claim_C7_amended_register_accumulation
    ⟨SpanType.POSTSYNAPTIC, SynapseMatrixConnectivity.DENSE,
      [VarImplementation.INDIVIDUAL], false, false, 4⟩ ⟨7, 32⟩
    (str "atomicAdd") (str "ipost") (str "Syn")
  refine ⟨Or.inl ((h.1 rfl).mpr (Or.inl rfl)), ?_, ?_⟩
  · exact h.2.1 ((h.1 rfl).mpr (Or.inl rfl))
  · exact h.2.2 (by decide)

/-- **C9.** For every model state, an `add*` call whose name is already
used by a group of the same category fails with an error and leaves that
registry unchanged (the failed `std::map::emplace` does not modify the
map), while a call with a fresh name succeeds and adds exactly one entry
to its registry, leaving the other registries untouched (for a current
source, the neuron registry keeps its groups, only recording the
injection on the target). -/
theorem claim_C9_duplicate_names (m : ModelSpec) (name : String)
    (size delaySteps : Nat) (src trg target : String) :
    ((m.localNeuronGroups.any (fun e => e.1 = name) = true →
        m.addNeuronPopulation name size
          = .error ("Cannot add a neuron population with duplicate name:"
              ++ name)
        ∧ (emplace m.localNeuronGroups name ⟨size, []⟩).1
            = m.localNeuronGroups)
      ∧ (m.localNeuronGroups.any (fun e => e.1 = name) = false →
        ∃ m2, m.addNeuronPopulation name size = .ok m2
          ∧ m2.localNeuronGroups.length = m.localNeuronGroups.length + 1
          ∧ m2.localSynapseGroups = m.localSynapseGroups
          ∧ m2.localCurrentSources = m.localCurrentSources))
    ∧ ((m.findNeuronGroupInternal src).isSome = true →
        (m.findNeuronGroupInternal trg).isSome = true →
        (m.localSynapseGroups.any (fun e => e.1 = name) = true →
          m.addSynapsePopulation name delaySteps src trg
            = .error ("Cannot add a synapse population with duplicate name:"
                ++ name)
          ∧ (emplace m.localSynapseGroups name ⟨delaySteps, src, trg⟩).1
              = m.localSynapseGroups)
        ∧ (m.localSynapseGroups.any (fun e => e.1 = name) = false →
          ∃ m2, m.addSynapsePopulation name delaySteps src trg = .ok m2
            ∧ m2.localSynapseGroups.length
                = m.localSynapseGroups.length + 1
            ∧ m2.localNeuronGroups = m.localNeuronGroups
            ∧ m2.localCurrentSources = m.localCurrentSources))
    ∧ ((m.findNeuronGroupInternal target).isSome = true →
        (m.localCurrentSources.any (fun e => e.1 = name) = true →
          m.addCurrentSource name target
            = .error ("Cannot add a current source with duplicate name:"
                ++ name)
          ∧ (emplace m.localCurrentSources name ⟨target⟩).1
              = m.localCurrentSources)
        ∧ (m.localCurrentSources.any (fun e => e.1 = name) = false →
          ∃ m2, m.addCurrentSource name target = .ok m2
            ∧ m2.localCurrentSources.length
                = m.localCurrentSources.length + 1
            ∧ m2.localSynapseGroups = m.localSynapseGroups
            ∧ m2.localNeuronGroups.length = m.localNeuronGroups.length)) := by
  refine ⟨⟨?_, ?_⟩, ?_, ?_⟩
  · intro hdup
    constructor
    · simp [ModelSpec.addNeuronPopulation, emplace, hdup]
    · simp [emplace, hdup]
  · intro hfresh
    refine ⟨{ m with localNeuronGroups :=
        m.localNeuronGroups ++ [(name, ⟨size, []⟩)] }, ?_, ?_, rfl, rfl⟩
    · simp [ModelSpec.addNeuronPopulation, emplace, hfresh]
    · simp
  · intro hsrc htrg
    obtain ⟨gsrc, hgs⟩ := Option.isSome_iff_exists.mp hsrc
    obtain ⟨gtrg, hgt⟩ := Option.isSome_iff_exists.mp htrg
    constructor
    · intro hdup
      constructor
      · simp [ModelSpec.addSynapsePopulation, hgs, hgt, emplace, hdup]
      · simp [emplace, hdup]
    · intro hfresh
      refine ⟨{ m with localSynapseGroups :=
          m.localSynapseGroups ++ [(name, ⟨delaySteps, src, trg⟩)] },
        ?_, ?_, rfl, rfl⟩
      · simp [ModelSpec.addSynapsePopulation, hgs, hgt, emplace, hfresh]
      · simp
  · intro htarget
    obtain ⟨gt, hg⟩ := Option.isSome_iff_exists.mp htarget
    constructor
    · intro hdup
      constructor
      · simp [ModelSpec.addCurrentSource, hg, emplace, hdup]
      · simp [emplace, hdup]
    · intro hfresh
      refine ⟨ModelSpec.injectCurrentInto
          { m with localCurrentSources :=
              m.localCurrentSources ++ [(name, ⟨target⟩)] } target name,
        ?_, ?_, ?_, ?_⟩
      · simp [ModelSpec.addCurrentSource, hg, emplace, hfresh]
      · simp [ModelSpec.injectCurrentInto]
      · simp [ModelSpec.injectCurrentInto]
      · simp [ModelSpec.injectCurrentInto]

/-- **C9, witness.** On a model holding neuron group `"A"`, re-adding a
neuron population named `"A"` is rejected with the exact duplicate-name
error and the registry untouched. -/
theorem claim_C9_witness :
    ModelSpec.addNeuronPopulation ⟨[("A", ⟨10, []⟩)], [], []⟩ "A" 5
      = .error ("Cannot add a neuron population with duplicate name:" ++ "A")
    ∧ (emplace [("A", (⟨10, []⟩ : NeuronGroupR))] "A" ⟨5, []⟩).1
        = [("A", ⟨10, []⟩)] :=
  (claim_C9_duplicate_names ⟨[("A", ⟨10, []⟩)], [], []⟩
    "A" 5 0 "A" "A" "A").1.1 (by decide)

/-! ### Delay widening at finalize (C5) -/

theorem updateNeuronAt_length (l : List NeuronGroupF) (i : Nat)
    (f : NeuronGroupF → NeuronGroupF) :
    (updateNeuronAt l i f).length = l.length := by
  induction l generalizing i with
  | nil => rfl
  | cons a t ih => cases i <;> simp [updateNeuronAt, ih]

theorem getD_updateNeuronAt_self (l : List NeuronGroupF) (i : Nat)
    (f : NeuronGroupF → NeuronGroupF) (d : NeuronGroupF)
    (h : i < l.length) :
    (updateNeuronAt l i f).getD i d = f (l.getD i d) := by
  induction l generalizing i with
  | nil => simp at h
  | cons a t ih =>
    cases i with
    | zero => simp [updateNeuronAt]
    | succ n =>
      simp only [updateNeuronAt, List.getD_cons_succ]
      exact ih n (by simpa using h)

theorem getD_updateNeuronAt_ne (l : List NeuronGroupF) (i j : Nat)
    (f : NeuronGroupF → NeuronGroupF) (d : NeuronGroupF) (h : j ≠ i) :
    (updateNeuronAt l i f).getD j d = l.getD j d := by
  induction l generalizing i j with
  | nil => rfl
  | cons a t ih =>
    cases i with
    | zero =>
      cases j with
      | zero => exact absurd rfl h
      | succ n => simp [updateNeuronAt]
    | succ m =>
      cases j with
      | zero => simp [updateNeuronAt]
      | succ n =>
        simp only [updateNeuronAt, List.getD_cons_succ]
        exact ih m n (fun he => h (by rw [he]))

theorem finalizeSynapseGroup_neurons_length (m : NetworkModelF)
    (sg0 : SynapseGroupF) :
    (finalizeSynapseGroup m sg0).neurons.length = m.neurons.length := by
  unfold finalizeSynapseGroup
  split
  · simp [updateNeuronAt_length]
  · rfl

theorem finalizeSynapseGroup_vars (m : NetworkModelF) (sg0 : SynapseGroupF)
    (i : Nat) (d : NeuronGroupF) :
    ((finalizeSynapseGroup m sg0).neurons.getD i d).vars
      = (m.neurons.getD i d).vars := by
  unfold finalizeSynapseGroup
  split
  · by_cases hij : i = sg0.srcIdx
    · subst hij
      by_cases hlen : sg0.srcIdx < m.neurons.length
      · rw [getD_updateNeuronAt_self _ _ _ _ hlen]
        simp [updatePreVarQueues, checkNumDelaySlots]
      · rw [List.getD_eq_default _ _
            (by rw [updateNeuronAt_length]; omega),
          List.getD_eq_default _ _ (by omega)]
    · rw [getD_updateNeuronAt_ne _ _ _ _ _ hij]
  · rfl

theorem finalizeSynapseGroup_preserves (m : NetworkModelF)
    (sg0 : SynapseGroupF) (i : Nat) (x : String) (s : Nat)
    (d : NeuronGroupF)
    (h1 : s ≤ (m.neurons.getD i d).numDelaySlots)
    (h2 : x ∈ (m.neurons.getD i d).varQueueRequired) :
    s ≤ ((finalizeSynapseGroup m sg0).neurons.getD i d).numDelaySlots
    ∧ x ∈ ((finalizeSynapseGroup m sg0).neurons.getD i d).varQueueRequired
    := by
  unfold finalizeSynapseGroup
  split
  · by_cases hij : i = sg0.srcIdx
    · subst hij
      by_cases hlen : sg0.srcIdx < m.neurons.length
      · rw [getD_updateNeuronAt_self _ _ _ _ hlen]
        refine ⟨?_, ?_⟩
        · simp only [updatePreVarQueues, checkNumDelaySlots]
          exact le_trans h1 (le_max_left _ _)
        · simp only [updatePreVarQueues, checkNumDelaySlots,
            List.mem_append]
          exact Or.inl h2
      · rw [List.getD_eq_default _ _
            (by rw [updateNeuronAt_length]; omega)]
        rw [List.getD_eq_default _ _ (by omega)] at h1 h2
        exact ⟨h1, h2⟩
    · rw [getD_updateNeuronAt_ne _ _ _ _ _ hij]
      exact ⟨h1, h2⟩
  · exact ⟨h1, h2⟩

theorem finalize_fold_preserves (sgs : List SynapseGroupF) (i : Nat)
    (x : String) (s : Nat) (d : NeuronGroupF) :
    ∀ m : NetworkModelF,
    s ≤ (m.neurons.getD i d).numDelaySlots →
    x ∈ (m.neurons.getD i d).varQueueRequired →
    s ≤ ((sgs.foldl finalizeSynapseGroup m).neurons.getD i d).numDelaySlots
    ∧ x ∈ ((sgs.foldl finalizeSynapseGroup m).neurons.getD
        i d).varQueueRequired := by
  induction sgs with
  | nil => intro m h1 h2; exact ⟨h1, h2⟩
  | cons a t ih =>
    intro m h1 h2
    have hstep := finalizeSynapseGroup_preserves m a i x s d h1 h2
    simpa using ih (finalizeSynapseGroup m a) hstep.1 hstep.2

theorem finalizeSynapseGroup_establishes (m : NetworkModelF)
    (sg : SynapseGroupF) (x : String) (d : NeuronGroupF)
    (hlen : sg.srcIdx < m.neurons.length) (hdelay : 0 < sg.delaySteps)
    (hx : x ∈ (m.neurons.getD sg.srcIdx d).vars)
    (href : referencesPreVar sg.wuCode x = true) :
    sg.delaySteps + 1
      ≤ ((finalizeSynapseGroup m sg).neurons.getD sg.srcIdx d).numDelaySlots
    ∧ x ∈ ((finalizeSynapseGroup m sg).neurons.getD
        sg.srcIdx d).varQueueRequired := by
  unfold finalizeSynapseGroup
  rw [if_pos hdelay, getD_updateNeuronAt_self _ _ _ _ hlen]
  refine ⟨?_, ?_⟩
  · simp only [updatePreVarQueues, checkNumDelaySlots]
    exact le_max_right _ _
  · simp only [updatePreVarQueues, checkNumDelaySlots, List.mem_append]
    exact Or.inr (List.mem_filter.mpr ⟨hx, href⟩)

theorem finalize_fold_main (sg : SynapseGroupF) (x : String)
    (d : NeuronGroupF) (hdelay : 0 < sg.delaySteps)
    (href : referencesPreVar sg.wuCode x = true) :
    ∀ (sgs : List SynapseGroupF) (m : NetworkModelF), sg ∈ sgs →
    sg.srcIdx < m.neurons.length →
    x ∈ (m.neurons.getD sg.srcIdx d).vars →
    sg.delaySteps + 1
      ≤ ((sgs.foldl finalizeSynapseGroup m).neurons.getD
          sg.srcIdx d).numDelaySlots
    ∧ x ∈ ((sgs.foldl finalizeSynapseGroup m).neurons.getD
        sg.srcIdx d).varQueueRequired := by
  intro sgs
  induction sgs with
  | nil => intro m h; simp at h
  | cons a t ih =>
    intro m hmem hlen hx
    rcases List.mem_cons.mp hmem with heq | htail
    · subst heq
      have hest := finalizeSynapseGroup_establishes m sg x d hlen hdelay
        hx href
      simpa using finalize_fold_preserves t sg.srcIdx x
        (sg.delaySteps + 1) d (finalizeSynapseGroup m sg) hest.1 hest.2
    · have hlen2 : sg.srcIdx < (finalizeSynapseGroup m a).neurons.length := by
        rw [finalizeSynapseGroup_neurons_length]; exact hlen
      have hx2 : x ∈ ((finalizeSynapseGroup m a).neurons.getD
          sg.srcIdx d).vars := by
        rw [finalizeSynapseGroup_vars]; exact hx
      simpa using ih (finalizeSynapseGroup m a) htail hlen2 hx2

/-- **C5.** After the finalize pass, for every synapse group with
`delay_steps > 0` whose weight-update code references `$(X_pre)`, the
source neuron group's `num_delay_slots` is at least `delay_steps + 1` and
`X` is flagged queue-required; and in
`neuron_substitutions_in_synaptic_code` a queue-required presynaptic
variable is substituted by the access indexed through the presynaptic
queue offset (`devPrefix + X + name + "[" + offsetPre + preIdx + "]"`). -/
theorem claim_C5_delay_widening (m : NetworkModelF) (sg : SynapseGroupF)
    (x : String) (d : NeuronGroupF)
    (hmem : sg ∈ m.synapses) (hdelay : 0 < sg.delaySteps)
    (hlen : sg.srcIdx < m.neurons.length)
    (hx : x ∈ (m.neurons.getD sg.srcIdx d).vars)
    (href : referencesPreVar sg.wuCode x = true) :
    sg.delaySteps + 1
      ≤ ((finalizeDelays m).neurons.getD sg.srcIdx d).numDelaySlots
    ∧ x ∈ ((finalizeDelays m).neurons.getD sg.srcIdx d).varQueueRequired
    ∧ ∀ (wCode devPref ngName offsetPre preIdx : List Char) (fuel : Nat),
        preVarSubstInSynapticCode wCode x true devPref ngName offsetPre
            preIdx fuel
          = substitute (preVarPlaceholder x)
              (devPref ++ x.data ++ ngName ++ str "[" ++ offsetPre
                ++ preIdx ++ str "]") fuel wCode := by
  have h := finalize_fold_main sg x d hdelay href m.synapses m hmem hlen hx
  exact ⟨h.1, h.2, fun _ _ _ _ _ _ => rfl⟩

/-- **C5, witness.** The spec's delay-widening scenario: group `A` with
variable `V`, a synapse group with `delay_steps = 3` whose sim code
references `$(V_pre)`; after finalize `A` has 4 delay slots and `V`
queued. -/
theorem claim_C5_witness :
    0 < (3 : Nat)
    ∧ (3 : Nat) + 1 ≤ (((finalizeDelays
        ⟨[⟨["V"], 1, []⟩], [⟨0, 3, str "$(V_pre) * x"⟩]⟩).neurons.getD 0
          ⟨[], 1, []⟩).numDelaySlots)
    ∧ "V" ∈ ((finalizeDelays
        ⟨[⟨["V"], 1, []⟩], [⟨0, 3, str "$(V_pre) * x"⟩]⟩).neurons.getD 0
          ⟨[], 1, []⟩).varQueueRequired := by
  have h := claim_C5_delay_widening
    ⟨[⟨["V"], 1, []⟩], [⟨0, 3, str "$(V_pre) * x"⟩]⟩
    ⟨0, 3, str "$(V_pre) * x"⟩ "V" ⟨[], 1, []⟩
    (by decide) (by decide) (by decide) (by decide) (by decide)
  exact ⟨by decide, h.1, h.2.1⟩

/-! ### Termination of `substitute` (C10) -/

theorem strFind_cons_of_notPre (c : Char) (cs t : List Char)
    (h : isPrefixList t (c :: cs) = false) :
    strFind (c :: cs) t = (strFind cs t).map (· + 1) := by
  simp [strFind, h]

theorem strFind_replicate_b (i : Nat) (z : List Char) :
    strFind (List.replicate i 'b' ++ z) ['a', 'b']
      = (strFind z ['a', 'b']).map (· + i) := by
  induction i with
  | zero =>
    simp only [List.replicate, List.nil_append]
    cases strFind z ['a', 'b'] <;> simp
  | succ n ih =>
    rw [List.replicate_succ, List.cons_append,
      strFind_cons_of_notPre _ _ _ (by simp [isPrefixList]), ih]
    cases strFind z ['a', 'b'] <;> simp
    omega

theorem strFind_aab (j : Nat) :
    strFind (['a', 'a', 'b'] ++ List.replicate j 'a') ['a', 'b']
      = some 1 := by
  simp [strFind, isPrefixList]

theorem strFind_abb (j : Nat) :
    strFind (['a', 'b', 'b'] ++ List.replicate j 'a') ['a', 'b']
      = some 0 := by
  simp [strFind, isPrefixList]

theorem take_replicate_append (c : Char) (z : List Char) :
    ∀ (i n : Nat), (List.replicate i c ++ z).take (i + n)
      = List.replicate i c ++ z.take n := by
  intro i
  induction i with
  | zero => intro n; simp
  | succ m ih =>
    intro n
    simp only [List.replicate_succ, List.cons_append]
    have : m + 1 + n = (m + n) + 1 := by omega
    rw [this, List.take_succ_cons, ih]

theorem drop_replicate_append (c : Char) (z : List Char) :
    ∀ (i n : Nat), (List.replicate i c ++ z).drop (i + n) = z.drop n := by
  intro i
  induction i with
  | zero => intro n; simp
  | succ m ih =>
    intro n
    simp only [List.replicate_succ, List.cons_append]
    have : m + 1 + n = (m + n) + 1 := by omega
    rw [this, List.drop_succ_cons, ih]

theorem take_replicate_append0 (c : Char) (z : List Char) (i : Nat) :
    (List.replicate i c ++ z).take i = List.replicate i c := by
  have h := take_replicate_append c z i 0
  rw [Nat.add_zero, List.take_zero, List.append_nil] at h
  exact h

theorem step_aab (i j : Nat) :
    replaceFirst
        (List.replicate i 'b' ++ (['a', 'a', 'b'] ++ List.replicate j 'a'))
        ['a', 'b'] ['b', 'b', 'a', 'a']
      = some (List.replicate i 'b'
          ++ (['a', 'b', 'b'] ++ List.replicate (j + 2) 'a')) := by
  have hf : strFind
      (List.replicate i 'b' ++ (['a', 'a', 'b'] ++ List.replicate j 'a'))
      ['a', 'b'] = some (i + 1) := by
    rw [strFind_replicate_b, strFind_aab]
    simp [Nat.add_comm]
  simp only [replaceFirst, hf]
  have h2 : i + 1 + List.length ['a', 'b'] = i + 3 := by simp
  rw [h2, take_replicate_append, drop_replicate_append]
  simp [List.replicate_succ, List.append_assoc]

theorem step_abb (i j : Nat) :
    replaceFirst
        (List.replicate i 'b' ++ (['a', 'b', 'b'] ++ List.replicate j 'a'))
        ['a', 'b'] ['b', 'b', 'a', 'a']
      = some (List.replicate (i + 2) 'b'
          ++ (['a', 'a', 'b'] ++ List.replicate j 'a')) := by
  have hf : strFind
      (List.replicate i 'b' ++ (['a', 'b', 'b'] ++ List.replicate j 'a'))
      ['a', 'b'] = some i := by
    rw [strFind_replicate_b, strFind_abb]
    simp
  simp only [replaceFirst, hf]
  have h2 : i + List.length ['a', 'b'] = i + 2 := by simp
  rw [h2, take_replicate_append0, drop_replicate_append]
  have h3 : List.replicate (i + 2) 'b'
      = List.replicate i 'b' ++ ['b', 'b'] := by
    rw [List.replicate_add]
    rfl
  rw [h3]
  simp [List.append_assoc]

theorem substitute_ab_bbaa_diverges (fuel : Nat) : ∀ (i j : Nat),
    substitute ['a', 'b'] ['b', 'b', 'a', 'a'] fuel
        (List.replicate i 'b' ++ (['a', 'a', 'b'] ++ List.replicate j 'a'))
      = none
    ∧ substitute ['a', 'b'] ['b', 'b', 'a', 'a'] fuel
        (List.replicate i 'b' ++ (['a', 'b', 'b'] ++ List.replicate j 'a'))
      = none := by
  induction fuel with
  | zero =>
    intro i j
    constructor
    · unfold substitute; rw [step_aab]
    · unfold substitute; rw [step_abb]
  | succ f ih =>
    intro i j
    constructor
    · show substitute _ _ (f + 1) _ = none
      unfold substitute
      rw [step_aab]
      exact (ih i (j + 2)).2
    · show substitute _ _ (f + 1) _ = none
      unfold substitute
      rw [step_abb]
      exact (ih (i + 2) j).1

/-- **C10, counterexample.** With `s = "aab"`, `trg = "ab"`,
`rep = "bbaa"`, the target is non-empty and the replacement does not
contain the target as a substring, yet the replacement loop of
`substitute` never terminates: the buffer cycles through the
shapes b^i ++ aab ++ a^j and b^i ++ abb ++ a^j forever, so the result is `none` at every fuel. -/
theorem claim_C10_counterexample :
    (['a', 'b'] : List Char) ≠ []
    ∧ strFind ['b', 'b', 'a', 'a'] ['a', 'b'] = none
    ∧ ¬ ∃ (fuel : Nat) (res : List Char),
        substitute ['a', 'b'] ['b', 'b', 'a', 'a'] fuel ['a', 'a', 'b']
          = some res := by
  refine ⟨by decide, by decide, ?_⟩
  rintro ⟨fuel, res, h⟩
  have hd := (substitute_ab_bbaa_diverges fuel 0 0).1
  simp only [List.replicate, List.nil_append, List.append_nil] at hd
  rw [hd] at h
  exact Option.noConfusion h

theorem isPrefixList_decomp : ∀ (t s : List Char),
    isPrefixList t s = true → s = t ++ s.drop t.length := by
  intro t
  induction t with
  | nil => intro s _; simp
  | cons a as ih =>
    intro s h
    cases s with
    | nil => simp [isPrefixList] at h
    | cons b bs =>
      by_cases hab : a = b
      · subst hab
        simp only [isPrefixList, if_pos rfl] at h
        have h2 := ih bs h
        simp only [List.length_cons, List.drop_succ_cons,
          List.cons_append]
        exact congrArg (a :: ·) h2
      · simp [isPrefixList, hab] at h

theorem strFind_decomp : ∀ (s t : List Char) (i : Nat),
    strFind s t = some i →
    s = s.take i ++ t ++ s.drop (i + t.length) := by
  intro s
  induction s with
  | nil =>
    intro t i h
    simp only [strFind] at h
    split at h
    · rename_i ht
      injection h with h2
      subst h2
      simp [ht]
    · exact absurd h (by simp)
  | cons c cs ih =>
    intro t i h
    simp only [strFind] at h
    split at h
    · rename_i hp
      injection h with h2
      subst h2
      simp only [List.take_zero, List.nil_append, Nat.zero_add]
      exact isPrefixList_decomp t (c :: cs) hp
    · cases hfind : strFind cs t with
      | none => rw [hfind] at h; simp at h
      | some n =>
        rw [hfind] at h
        simp only [Option.map_some'] at h
        injection h with h2
        subst h2
        have h3 := ih t n hfind
        simp only [List.take_succ_cons, List.cons_append]
        rw [show n + 1 + t.length = (n + t.length) + 1 by omega,
          List.drop_succ_cons]
        exact congrArg (c :: ·) h3

theorem replaceFirst_countP_lt (s trg rep s2 : List Char) (htrg : trg ≠ [])
    (hrep : ∀ c ∈ rep, c ∉ trg) (h : replaceFirst s trg rep = some s2) :
    s2.countP (fun c => decide (c ∈ trg))
      < s.countP (fun c => decide (c ∈ trg)) := by
  unfold replaceFirst at h
  cases hfind : strFind s trg with
  | none => rw [hfind] at h; exact absurd h (by simp)
  | some i =>
    rw [hfind] at h
    injection h with h2
    subst h2
    have hdec := strFind_decomp s trg i hfind
    conv_rhs => rw [hdec]
    simp only [List.countP_append]
    have h1 : trg.countP (fun c => decide (c ∈ trg)) = trg.length :=
      List.countP_eq_length.mpr (fun a ha => by simpa using ha)
    have h0 : rep.countP (fun c => decide (c ∈ trg)) = 0 :=
      List.countP_eq_zero.mpr (fun a ha => by simpa using hrep a ha)
    have hlen : 0 < trg.length := List.length_pos.mpr htrg
    omega

theorem strFind_none_of_countP_zero (s trg : List Char) (htrg : trg ≠ [])
    (h : s.countP (fun c => decide (c ∈ trg)) = 0) :
    strFind s trg = none := by
  cases hfind : strFind s trg with
  | none => rfl
  | some i =>
    exfalso
    have hdec := strFind_decomp s trg i hfind
    have hc := congrArg (List.countP (fun c => decide (c ∈ trg))) hdec
    simp only [List.countP_append] at hc
    have h1 : trg.countP (fun c => decide (c ∈ trg)) = trg.length :=
      List.countP_eq_length.mpr (fun a ha => by simpa using ha)
    have hlen : 0 < trg.length := List.length_pos.mpr htrg
    omega

theorem substitute_terminates_aux (trg rep : List Char) (htrg : trg ≠ [])
    (hrep : ∀ c ∈ rep, c ∉ trg) :
    ∀ (n : Nat) (s : List Char),
    s.countP (fun c => decide (c ∈ trg)) ≤ n →
    ∃ res, substitute trg rep n s = some res ∧ strFind res trg = none := by
  intro n
  induction n with
  | zero =>
    intro s hcount
    have hz := Nat.le_zero.mp hcount
    have hnone := strFind_none_of_countP_zero s trg htrg hz
    have hrf : replaceFirst s trg rep = none := by
      unfold replaceFirst; rw [hnone]
    exact ⟨s, by unfold substitute; rw [hrf], hnone⟩
  | succ n ih =>
    intro s hcount
    cases hrf : replaceFirst s trg rep with
    | none =>
      have hnone : strFind s trg = none := by
        unfold replaceFirst at hrf
        cases hf : strFind s trg with
        | none => rfl
        | some i => rw [hf] at hrf; exact absurd hrf (by simp)
      exact ⟨s, by unfold substitute; rw [hrf], hnone⟩
    | some s2 =>
      have hlt := replaceFirst_countP_lt s trg rep s2 htrg hrep hrf
      obtain ⟨res, hres, hnone⟩ := ih s2 (by omega)
      refine ⟨res, ?_, hnone⟩
      unfold substitute
      rw [hrf]
      exact hres

theorem replaceFirst_nil_trg (s rep : List Char) :
    replaceFirst s [] rep = some (rep ++ s) := by
  have hf : strFind s [] = some 0 := by
    cases s <;> simp [strFind, isPrefixList]
  unfold replaceFirst
  rw [hf]
  simp

theorem substitute_nil_trg_diverges (rep : List Char) :
    ∀ (fuel : Nat) (s : List Char), substitute [] rep fuel s = none := by
  intro fuel
  induction fuel with
  | zero =>
    intro s
    unfold substitute
    rw [replaceFirst_nil_trg]
  | succ f ih =>
    intro s
    unfold substitute
    rw [replaceFirst_nil_trg]
    exact ih _

theorem isPrefixList_self_append : ∀ (t z : List Char),
    isPrefixList t (t ++ z) = true := by
  intro t
  induction t with
  | nil => intro z; rfl
  | cons a as ih => intro z; simp [isPrefixList, ih]

theorem strFind_isSome_of_split : ∀ (u trg v : List Char),
    strFind (u ++ (trg ++ v)) trg ≠ none := by
  intro u
  induction u with
  | nil =>
    intro trg v
    cases trg with
    | nil => cases v <;> simp [strFind, isPrefixList]
    | cons a as =>
      have hp : isPrefixList (a :: as) (a :: (as ++ v)) = true := by
        have h2 := isPrefixList_self_append (a :: as) v
        simpa using h2
      simp [strFind, hp]
  | cons c u2 ih =>
    intro trg v
    rw [List.cons_append]
    cases hb : isPrefixList trg (c :: (u2 ++ (trg ++ v))) with
    | true => simp [strFind, hb]
    | false =>
      have hne := ih trg v
      cases hf : strFind (u2 ++ (trg ++ v)) trg with
      | none => exact absurd hf hne
      | some n => simp [strFind, hb, hf]

theorem substitute_trg_in_rep_diverges (trg rep : List Char)
    (hrep : ∃ u v, rep = u ++ (trg ++ v)) :
    ∀ (fuel : Nat) (s : List Char), (∃ u2 v2, s = u2 ++ (trg ++ v2)) →
    substitute trg rep fuel s = none := by
  intro fuel
  induction fuel with
  | zero =>
    rintro s ⟨u2, v2, rfl⟩
    cases hfind : strFind (u2 ++ (trg ++ v2)) trg with
    | none => exact absurd hfind (strFind_isSome_of_split u2 trg v2)
    | some i =>
      have hrf : replaceFirst (u2 ++ (trg ++ v2)) trg rep
          = some ((u2 ++ (trg ++ v2)).take i ++ rep
              ++ (u2 ++ (trg ++ v2)).drop (i + trg.length)) := by
        unfold replaceFirst; rw [hfind]
      unfold substitute
      rw [hrf]
  | succ f ih =>
    rintro s ⟨u2, v2, rfl⟩
    obtain ⟨u, v, hrepeq⟩ := hrep
    cases hfind : strFind (u2 ++ (trg ++ v2)) trg with
    | none => exact absurd hfind (strFind_isSome_of_split u2 trg v2)
    | some i =>
      have hrf : replaceFirst (u2 ++ (trg ++ v2)) trg rep
          = some ((u2 ++ (trg ++ v2)).take i ++ rep
              ++ (u2 ++ (trg ++ v2)).drop (i + trg.length)) := by
        unfold replaceFirst; rw [hfind]
      unfold substitute
      rw [hrf]
      apply ih
      refine ⟨(u2 ++ (trg ++ v2)).take i ++ u,
        v ++ (u2 ++ (trg ++ v2)).drop (i + trg.length), ?_⟩
      rw [hrepeq]
      simp [List.append_assoc]

/-- **C10, amended.** The replacement loop of `substitute(s, trg, rep)`
terminates — with a result free of `trg` — whenever `trg` is non-empty
and `rep` contains no character of `trg` (the weaker stated precondition,
`rep` not containing `trg` as a substring, does not suffice — see the
counterexample); with `trg` empty the loop never terminates, and with
`rep` containing `trg` it never terminates on any string in which `trg`
occurs. -/
theorem claim_C10_amended_substitute_termination (s trg rep : List Char) :
    (trg ≠ [] → (∀ c ∈ rep, c ∉ trg) →
      ∃ (fuel : Nat) (res : List Char),
        substitute trg rep fuel s = some res ∧ strFind res trg = none)
    ∧ (∀ fuel : Nat, substitute [] rep fuel s = none)
    ∧ ((∃ u v, rep = u ++ (trg ++ v)) →
      (∃ u2 v2, s = u2 ++ (trg ++ v2)) →
      ∀ fuel : Nat, substitute trg rep fuel s = none) := by
  refine ⟨?_, ?_, ?_⟩
  · intro h1 h2
    obtain ⟨res, hr, hn⟩ := substitute_terminates_aux trg rep h1 h2
      (s.countP (fun c => decide (c ∈ trg))) s le_rfl
    exact ⟨_, res, hr, hn⟩
  · exact fun fuel => substitute_nil_trg_diverges rep fuel s
  · intro h1 h2 fuel
    exact substitute_trg_in_rep_diverges trg rep h1 fuel s h2

/-- **C10, witness.** `substitute("aXbXc", "X", "Y")` terminates with a
result free of `"X"`; with an empty target, or with `rep = "ba"`
containing the target `"a"` occurring in `"ca"`, the loop diverges. -/
theorem claim_C10_witness :
    (∃ (fuel : Nat) (res : List Char),
      substitute ['X'] ['Y'] fuel (str "aXbXc") = some res
        ∧ strFind res ['X'] = none)
    ∧ (∀ fuel : Nat, substitute [] ['Y'] fuel (str "ab") = none)
    ∧ (∀ fuel : Nat, substitute ['a'] ['b', 'a'] fuel (str "ca") = none)
    := by
  refine ⟨?_, ?_, ?_⟩
  · exact (claim_C10_amended_substitute_termination (str "aXbXc")
      ['X'] ['Y']).1 (by decide) (by decide)
  · exact fun fuel => (claim_C10_amended_substitute_termination (str "ab")
      [] ['Y']).2.1 fuel
  · intro fuel
    exact (claim_C10_amended_substitute_termination (str "ca")
      ['a'] ['b', 'a']).2.2 ⟨['b'], [], rfl⟩ ⟨['c'], [], rfl⟩ fuel

/-! ### Unresolved-placeholder detection (C1) -/

theorem eq_cons_of_head?_some {α : Type} (l : List α) (x : α)
    (h : l.head? = some x) : l = x :: l.tail := by
  cases l with
  | nil => simp at h
  | cons a t =>
    simp only [List.head?_cons, Option.some.injEq] at h
    simp [h]

theorem takeWhile_word_append (w : List Char) (x : Char) (t : List Char)
    (hw : ∀ c ∈ w, isWordChar c = true) (hx : isWordChar x = false) :
    (w ++ x :: t).takeWhile isWordChar = w
    ∧ (w ++ x :: t).dropWhile isWordChar = x :: t := by
  induction w with
  | nil => simp [List.takeWhile_cons, List.dropWhile_cons, hx]
  | cons a w2 ih =>
    have ha : isWordChar a = true := hw a (List.mem_cons_self a w2)
    have ih2 := ih (fun c hc => hw c (List.mem_cons_of_mem a hc))
    simp [List.takeWhile_cons, List.dropWhile_cons, ha, ih2]

theorem word_ne_dollar (c : Char) (h : isWordChar c = true) :
    ¬ c = '$' := by
  intro he
  rw [he] at h
  exact absurd h (by decide)

theorem findUnreplaced_sound : ∀ (n : Nat) (s v : List Char),
    v ∈ findUnreplaced n s →
    (∃ pre suf, s = pre ++ '$' :: '(' :: (v ++ ')' :: suf))
    ∧ v ≠ [] ∧ ∀ c ∈ v, isWordChar c = true := by
  intro n
  induction n with
  | zero => intro s v h; simp [findUnreplaced] at h
  | succ f ih =>
    intro s v h
    cases s with
    | nil => simp [findUnreplaced] at h
    | cons c rest =>
      have hstep : v ∈ findUnreplaced f rest →
          (∃ pre suf, c :: rest = pre ++ '$' :: '(' :: (v ++ ')' :: suf))
          ∧ v ≠ [] ∧ ∀ x ∈ v, isWordChar x = true := by
        intro hmem
        obtain ⟨⟨pre, suf, hdec⟩, hne, hword⟩ := ih rest v hmem
        exact ⟨⟨c :: pre, suf, by rw [hdec]; rfl⟩, hne, hword⟩
      by_cases hc : c = '$'
      · subst hc
        by_cases hh : rest.head? = some '('
        · by_cases hcond : rest.tail.takeWhile isWordChar ≠ []
              ∧ (rest.tail.dropWhile isWordChar).head? = some ')'
          · rw [findUnreplaced, if_pos rfl, if_pos hh, if_pos hcond] at h
            have hrest : rest = '(' :: rest.tail :=
              eq_cons_of_head?_some _ _ hh
            have hdrop : rest.tail.dropWhile isWordChar
                = ')' :: (rest.tail.dropWhile isWordChar).tail :=
              eq_cons_of_head?_some _ _ hcond.2
            have hsplit : rest.tail
                = rest.tail.takeWhile isWordChar
                  ++ ')' :: (rest.tail.dropWhile isWordChar).tail := by
              conv_lhs =>
                rw [← List.takeWhile_append_dropWhile (p := isWordChar)
                  (l := rest.tail)]
              rw [← hdrop]
            rcases List.mem_cons.mp h with hv | hmem
            · subst hv
              refine ⟨⟨[], (rest.tail.dropWhile isWordChar).tail, ?_⟩,
                hcond.1, fun x hx => List.mem_takeWhile_imp hx⟩
              rw [List.nil_append]
              conv_lhs => rw [hrest, hsplit]
            · obtain ⟨⟨pre, suf, hdec⟩, hne, hword⟩ :=
                ih ((rest.tail.dropWhile isWordChar).tail) v hmem
              refine ⟨⟨'$' :: '('
                  :: (rest.tail.takeWhile isWordChar ++ ')' :: pre),
                suf, ?_⟩, hne, hword⟩
              conv_lhs => rw [hrest, hsplit, hdec]
              simp [List.append_assoc]
          · rw [findUnreplaced, if_pos rfl, if_pos hh, if_neg hcond] at h
            exact hstep h
        · rw [findUnreplaced, if_pos rfl, if_neg hh] at h
          exact hstep h
      · rw [findUnreplaced, if_neg hc] at h
        exact hstep h

theorem split_of_head_drop (l : List Char)
    (h : (List.dropWhile isWordChar l).head? = some ')') :
    l = List.takeWhile isWordChar l
      ++ ')' :: (List.dropWhile isWordChar l).tail :=
  (List.takeWhile_append_dropWhile (p := isWordChar) (l := l)).symm.trans
    (congrArg (fun z => List.takeWhile isWordChar l ++ z)
      (eq_cons_of_head?_some _ _ h))

theorem no_dollar_split : ∀ (u pre tail z : List Char),
    (∀ c ∈ u, ¬ c = '$') → pre ++ '$' :: tail = u ++ z →
    ∃ pre2, pre = u ++ pre2 ∧ z = pre2 ++ '$' :: tail := by
  intro u
  induction u with
  | nil =>
    intro pre tail z _ h
    rw [List.nil_append] at h
    exact ⟨pre, (List.nil_append pre).symm, h.symm⟩
  | cons a u2 ihu =>
    intro pre tail z hne h
    cases pre with
    | nil =>
      rw [List.nil_append, List.cons_append] at h
      injection h with h1 _
      exact absurd h1.symm (hne a (List.mem_cons_self a u2))
    | cons p pre2 =>
      rw [List.cons_append, List.cons_append] at h
      injection h with h1 h2
      subst h1
      obtain ⟨pre3, hp, hz⟩ :=
        ihu pre2 tail z (fun x hx => hne x (List.mem_cons_of_mem _ hx)) h2
      exact ⟨pre3, by rw [hp]; rfl, hz⟩

theorem findUnreplaced_complete : ∀ (n : Nat) (pre w suf : List Char),
    (pre ++ '$' :: '(' :: (w ++ ')' :: suf)).length ≤ n →
    w ≠ [] → (∀ c ∈ w, isWordChar c = true) →
    w ∈ findUnreplaced n (pre ++ '$' :: '(' :: (w ++ ')' :: suf)) := by
  intro n
  induction n with
  | zero =>
    intro pre w suf hlen hne hword
    exfalso
    simp [List.length_append] at hlen
  | succ f ih =>
    intro pre w suf hlen hne hword
    cases pre with
    | nil =>
      rw [List.nil_append]
      have htw := takeWhile_word_append w ')' suf hword (by decide)
      rw [findUnreplaced, if_pos rfl, if_pos (by simp)]
      rw [if_pos (by simp only [List.tail_cons]; exact ⟨by simp [htw.1, hne],
        by simp [htw.2]⟩)]
      simp only [List.tail_cons, htw.1]
      exact List.mem_cons_self _ _
    | cons p pre2 =>
      have hlen2 : (pre2 ++ '$' :: '(' :: (w ++ ')' :: suf)).length ≤ f := by
        simp only [List.cons_append, List.length_cons] at hlen
        simp only [List.length_append, List.length_cons] at hlen ⊢
        omega
      rw [List.cons_append]
      by_cases hp : p = '$'
      · subst hp
        by_cases hh : (pre2 ++ '$' :: '(' :: (w ++ ')' :: suf)).head?
            = some '('
        · by_cases hcond : List.takeWhile isWordChar
                (pre2 ++ '$' :: '(' :: (w ++ ')' :: suf)).tail ≠ []
              ∧ (List.dropWhile isWordChar
                (pre2 ++ '$' :: '(' :: (w ++ ')' :: suf)).tail).head?
                  = some ')'
          · rw [findUnreplaced, if_pos rfl, if_pos hh, if_pos hcond]
            -- the head match spans only non-'$' characters, so the
            -- occurrence at hand lies wholly inside the resumed suffix
            have hrest : pre2 ++ '$' :: '(' :: (w ++ ')' :: suf)
                = '(' :: (pre2 ++ '$' :: '(' :: (w ++ ')' :: suf)).tail :=
              eq_cons_of_head?_some _ _ hh
            have hsplit := split_of_head_drop
              ((pre2 ++ '$' :: '(' :: (w ++ ')' :: suf)).tail) hcond.2
            cases pre2 with
            | nil =>
              exfalso
              rw [List.nil_append] at hrest
              injection hrest with h1 _
              exact absurd h1 (by decide)
            | cons q pre3 =>
              rw [List.cons_append] at hrest
              injection hrest with h1 h2
              have hnodollar : ∀ x ∈ List.takeWhile isWordChar
                  ((q :: pre3) ++ '$' :: '(' :: (w ++ ')' :: suf)).tail
                    ++ [')'], ¬ x = '$' := by
                intro x hx
                rcases List.mem_append.mp hx with hx1 | hx2
                · exact word_ne_dollar x (List.mem_takeWhile_imp hx1)
                · simp only [List.mem_singleton] at hx2
                  subst hx2
                  decide
              have hassoc : ((q :: pre3)
                    ++ '$' :: '(' :: (w ++ ')' :: suf)).tail
                  = (List.takeWhile isWordChar
                      ((q :: pre3) ++ '$' :: '(' :: (w ++ ')' :: suf)).tail
                      ++ [')'])
                    ++ (List.dropWhile isWordChar
                      ((q :: pre3)
                        ++ '$' :: '(' :: (w ++ ')' :: suf)).tail).tail := by
                conv_lhs => rw [hsplit]
                simp [List.append_assoc]
              have htaileq : ((q :: pre3)
                  ++ '$' :: '(' :: (w ++ ')' :: suf)).tail
                  = pre3 ++ '$' :: ('(' :: (w ++ ')' :: suf)) := by
                simp [List.cons_append]
              obtain ⟨pre4, hpre4, hz⟩ := no_dollar_split
                (List.takeWhile isWordChar
                  ((q :: pre3) ++ '$' :: '(' :: (w ++ ')' :: suf)).tail
                  ++ [')'])
                pre3 ('(' :: (w ++ ')' :: suf))
                ((List.dropWhile isWordChar
                  ((q :: pre3)
                    ++ '$' :: '(' :: (w ++ ')' :: suf)).tail).tail)
                hnodollar (by rw [← htaileq]; exact hassoc)
              have hlen3 :
                  ((List.dropWhile isWordChar
                    ((q :: pre3)
                      ++ '$' :: '(' :: (w ++ ')' :: suf)).tail).tail).length
                    ≤ f := by
                have hc := congrArg List.length hassoc
                have hc2 := congrArg List.length htaileq
                simp only [List.length_append, List.length_cons,
                  List.length_singleton] at hc hc2
                simp only [List.cons_append, List.length_cons,
                  List.length_append, List.length_cons] at hlen
                omega
              rw [hz] at hlen3 ⊢
              exact List.mem_cons_of_mem _ (ih pre4 w suf hlen3 hne hword)
          · rw [findUnreplaced, if_pos rfl, if_pos hh, if_neg hcond]
            exact ih pre2 w suf hlen2 hne hword
        · rw [findUnreplaced, if_pos rfl, if_neg hh]
          exact ih pre2 w suf hlen2 hne hword
      · rw [findUnreplaced, if_neg hp]
        exact ih pre2 w suf hlen2 hne hword

theorem take_append_len {α : Type} (l1 l2 : List α) (n : Nat) :
    (l1 ++ l2).take (l1.length + n) = l1 ++ l2.take n := by
  induction l1 with
  | nil => simp
  | cons a t ih =>
    rw [List.cons_append, List.length_cons,
      show t.length + 1 + n = (t.length + n) + 1 by omega,
      List.take_succ_cons, ih, List.cons_append]

theorem varsFold_eq : ∀ (bodies : List (List Char)) (acc : List Char),
    bodies.foldl (fun a v => a ++ v ++ [',', ' ']) acc
      = acc ++ bodies.foldl (fun a v => a ++ v ++ [',', ' ']) [] := by
  intro bodies
  induction bodies with
  | nil => intro acc; simp
  | cons b bs ih =>
    intro acc
    simp only [List.foldl_cons, List.nil_append]
    rw [ih (acc ++ b ++ [',', ' ']), ih (b ++ [',', ' '])]
    simp [List.append_assoc]

theorem varsFold_cons (b : List Char) (bs : List (List Char)) :
    (b :: bs).foldl (fun a v => a ++ v ++ [',', ' ']) []
      = (b ++ [',', ' '])
        ++ bs.foldl (fun a v => a ++ v ++ [',', ' ']) [] := by
  simp only [List.foldl_cons, List.nil_append]
  exact varsFold_eq bs (b ++ [',', ' '])

theorem varsFold_take : ∀ (bodies : List (List Char)), bodies ≠ [] →
    (bodies.foldl (fun a v => a ++ v ++ [',', ' ']) []).take
        ((bodies.foldl (fun a v => a ++ v ++ [',', ' ']) []).length - 2)
      = joinCommaSep bodies := by
  intro bodies
  induction bodies with
  | nil => intro h; exact absurd rfl h
  | cons b bs ih =>
    intro _
    cases bs with
    | nil =>
      rw [varsFold_cons]
      simp only [List.foldl_nil, List.append_nil, joinCommaSep]
      rw [List.length_append,
        show b.length + ([',', ' '] : List Char).length - 2 = b.length
          by simp]
      exact List.take_left b [',', ' ']
    | cons c rest =>
      rw [varsFold_cons]
      have hlen2 : 2 ≤ ((c :: rest).foldl
          (fun a v => a ++ v ++ [',', ' ']) []).length := by
        rw [varsFold_cons]
        simp only [List.length_append, List.length_cons, List.length_nil]
        omega
      rw [List.length_append,
        show (b ++ [',', ' ']).length
            + ((c :: rest).foldl (fun a v => a ++ v ++ [',', ' ']) []).length
            - 2
          = (b ++ [',', ' ']).length
            + (((c :: rest).foldl
              (fun a v => a ++ v ++ [',', ' ']) []).length - 2)
          by omega]
      rw [take_append_len, ih (by simp)]
      show b ++ [',', ' '] ++ joinCommaSep (c :: rest) = _
      simp [joinCommaSep, List.append_assoc]

theorem infix_extend (v m a b : List Char) (h : List.IsInfix v m) :
    List.IsInfix v (a ++ m ++ b) := by
  obtain ⟨s, t, hs⟩ := h
  exact ⟨a ++ s, t ++ b, by rw [← hs]; simp [List.append_assoc]⟩

theorem mem_joinCommaSep_infix : ∀ (bodies : List (List Char))
    (v : List Char), v ∈ bodies → List.IsInfix v (joinCommaSep bodies) := by
  intro bodies
  induction bodies with
  | nil => intro v h; simp at h
  | cons b bs ih =>
    intro v hv
    cases bs with
    | nil =>
      simp only [List.mem_singleton] at hv
      subst hv
      exact List.infix_rfl
    | cons c rest =>
      rcases List.mem_cons.mp hv with hv1 | hv2
      · subst hv1
        exact ⟨[], [',', ' '] ++ joinCommaSep (c :: rest),
          by simp [joinCommaSep, List.append_assoc]⟩
      · have h2 := ih v hv2
        obtain ⟨s, t, hs⟩ := h2
        exact ⟨b ++ [',', ' '] ++ s, t,
          by rw [joinCommaSep]; rw [← hs]; simp [List.append_assoc]⟩

theorem checkU_ok_iff (code codeName : List Char) :
    checkUnreplacedVariables code codeName = .ok ()
      ↔ findUnreplacedVars code = [] := by
  cases h : findUnreplacedVars code with
  | nil => simp [checkUnreplacedVariables, h]
  | cons b bs =>
    have hpos : 0 < ((b :: bs).foldl
        (fun a v => a ++ v ++ [',', ' ']) []).length := by
      rw [varsFold_cons]
      simp [List.length_append]
    simp only [checkUnreplacedVariables, h, if_pos hpos]
    simp

theorem checkU_error_msg (code codeName e : List Char)
    (h : checkUnreplacedVariables code codeName = .error e) :
    List.IsInfix codeName e
    ∧ ∀ v ∈ findUnreplacedVars code, List.IsInfix v e := by
  cases hb : findUnreplacedVars code with
  | nil =>
    rw [(checkU_ok_iff code codeName).mpr hb] at h
    exact absurd h (by simp)
  | cons b bs =>
    have hpos : 0 < ((b :: bs).foldl
        (fun a v => a ++ v ++ [',', ' ']) []).length := by
      rw [varsFold_cons]
      simp [List.length_append]
    simp only [checkUnreplacedVariables, hb, if_pos hpos,
      Except.error.injEq] at h
    obtain ⟨X, Y, hXY⟩ : ∃ X Y,
        (if strFind (((b :: bs).foldl (fun a v => a ++ v ++ [',', ' ']) []
              ).take (((b :: bs).foldl (fun a v => a ++ v ++ [',', ' ']) []
              ).length - 2)) [','] ≠ none then
          str "variables "
            ++ (((b :: bs).foldl (fun a v => a ++ v ++ [',', ' ']) []).take
              (((b :: bs).foldl (fun a v => a ++ v ++ [',', ' ']) []
                ).length - 2))
            ++ str " were "
        else
          str "variable "
            ++ (((b :: bs).foldl (fun a v => a ++ v ++ [',', ' ']) []).take
              (((b :: bs).foldl (fun a v => a ++ v ++ [',', ' ']) []
                ).length - 2))
            ++ str " was ")
        = X ++ (((b :: bs).foldl (fun a v => a ++ v ++ [',', ' ']) []).take
            (((b :: bs).foldl (fun a v => a ++ v ++ [',', ' ']) []
              ).length - 2)) ++ Y := by
      by_cases hcomma : strFind (((b :: bs).foldl
          (fun a v => a ++ v ++ [',', ' ']) []).take
            (((b :: bs).foldl (fun a v => a ++ v ++ [',', ' ']) []
              ).length - 2)) [','] ≠ none
      · exact ⟨str "variables ", str " were ", by rw [if_pos hcomma]⟩
      · exact ⟨str "variable ", str " was ", by rw [if_neg hcomma]⟩
    rw [hXY, varsFold_take (b :: bs) (by simp)] at h
    constructor
    · exact ⟨str "The " ++ (X ++ joinCommaSep (b :: bs) ++ Y)
          ++ str "undefined in code ", str ".", by rw [← h]⟩
    · intro v hv
      have h1 := mem_joinCommaSep_infix (b :: bs) v hv
      have h2 : List.IsInfix (joinCommaSep (b :: bs)) e :=
        ⟨str "The " ++ X,
          Y ++ str "undefined in code " ++ codeName ++ str ".",
          by rw [← h]; simp [List.append_assoc]⟩
      exact h1.trans h2

/-- **C1.** `checkUnreplacedVariables(code, codeName)` raises an error if
and only if `code` contains a remaining placeholder `$(` followed by one
or more word characters followed by `)`; when it raises, the diagnostic
contains the code context `codeName` and every unresolved placeholder
body; when no such placeholder exists it returns normally. -/
theorem claim_C1_check_unresolved (code codeName : List Char) :
    ((∃ e, checkUnreplacedVariables code codeName = .error e) ↔
      ∃ pre w suf, code = pre ++ '$' :: '(' :: (w ++ ')' :: suf)
        ∧ w ≠ [] ∧ ∀ c ∈ w, isWordChar c = true)
    ∧ (∀ e, checkUnreplacedVariables code codeName = .error e →
        List.IsInfix codeName e
        ∧ ∀ pre w suf, code = pre ++ '$' :: '(' :: (w ++ ')' :: suf) →
            w ≠ [] → (∀ c ∈ w, isWordChar c = true) → List.IsInfix w e)
    ∧ ((¬ ∃ pre w suf, code = pre ++ '$' :: '(' :: (w ++ ')' :: suf)
          ∧ w ≠ [] ∧ ∀ c ∈ w, isWordChar c = true) →
        checkUnreplacedVariables code codeName = .ok ()) := by
  have hiff : (∃ pre w suf, code = pre ++ '$' :: '(' :: (w ++ ')' :: suf)
        ∧ w ≠ [] ∧ ∀ c ∈ w, isWordChar c = true)
      ↔ findUnreplacedVars code ≠ [] := by
    constructor
    · rintro ⟨pre, w, suf, hdec, hne, hword⟩
      intro hnil
      have hmem := findUnreplaced_complete code.length pre w suf
        (by rw [hdec]) hne hword
      rw [← hdec] at hmem
      rw [show findUnreplaced code.length code = findUnreplacedVars code
        from rfl, hnil] at hmem
      simp at hmem
    · intro hne
      cases hb : findUnreplacedVars code with
      | nil => exact absurd hb hne
      | cons b bs =>
        have hmem : b ∈ findUnreplaced code.length code := by
          rw [show findUnreplaced code.length code
            = findUnreplacedVars code from rfl, hb]
          exact List.mem_cons_self _ _
        obtain ⟨⟨pre, suf, hdec⟩, hbne, hword⟩ :=
          findUnreplaced_sound code.length code b hmem
        exact ⟨pre, b, suf, hdec, hbne, hword⟩
  refine ⟨?_, ?_, ?_⟩
  · rw [hiff]
    constructor
    · rintro ⟨e, he⟩ hnil
      rw [(checkU_ok_iff code codeName).mpr hnil] at he
      exact absurd he (by simp)
    · intro hne
      cases hres : checkUnreplacedVariables code codeName with
      | error e => exact ⟨e, rfl⟩
      | ok u =>
        cases u
        exact absurd ((checkU_ok_iff code codeName).mp hres) hne
  · intro e he
    have hmsg := checkU_error_msg code codeName e he
    refine ⟨hmsg.1, ?_⟩
    intro pre w suf hdec hne hword
    have hmem := findUnreplaced_complete code.length pre w suf
      (by rw [hdec]) hne hword
    rw [← hdec] at hmem
    exact hmsg.2 w hmem
  · intro hno
    cases hres : checkUnreplacedVariables code codeName with
    | ok u => cases u; rfl
    | error e =>
      exfalso
      refine hno (hiff.mpr ?_)
      intro hnil
      rw [(checkU_ok_iff code codeName).mpr hnil] at hres
      exact absurd hres (by simp)

/-- **C1, witness.** On `"a += $(foo);"` the check fails with a message
containing both the context `"sim"` and the body `"foo"`; a concrete
decomposition witnesses the placeholder. -/
theorem claim_C1_witness :
    (∃ e, checkUnreplacedVariables (str "a += $(foo);") (str "sim")
      = .error e)
    ∧ ∀ e, checkUnreplacedVariables (str "a += $(foo);") (str "sim")
        = .error e →
      List.IsInfix (str "sim") e ∧ List.IsInfix (str "foo") e := by
  have h := claim_C1_check_unresolved (str "a += $(foo);") (str "sim")
  have hdec : str "a += $(foo);"
      = str "a += " ++ '$' :: '(' :: (str "foo" ++ ')' :: str ";") := by
    decide
  refine ⟨h.1.mpr ⟨str "a += ", str "foo", str ";", hdec, by decide,
    by decide⟩, ?_⟩
  intro e he
  have h2 := h.2.1 e he
  exact ⟨h2.1, h2.2 (str "a += ") (str "foo") (str ";") hdec (by decide)
    (by decide)⟩

end GeNN
